import Mathlib

/-! Crypto_Data_Analyzer: a verification development for `main.go`.

The service keeps one process-wide slice `cryptos []Crypto` and answers
requests by reading, reordering or replacing it.  Every handler is embedded
as a pure function from the request input and the cache before the call to
the response written and the cache after the call.

Conventions of the embedding:

* `Price` is a `float64` that is only ever written from a decoded JSON number,
  hence finite; a finite `float64` is a rational number and `<` / `>` on finite
  floats is the order of their values, so `Price : ℚ` (the sign of a zero is
  not represented).
* Go strings are modelled by `String` (sequences of Unicode code points).
* Library routines (`sort.Slice`, `strings.ToUpper`, `strings.Trim`,
  `strconv.ParseFloat`, `fmt.Sprintf("%.2f")`) are modelled by executable
  definitions stated next to each of them.
-/

namespace CryptoAnalyzer

/-! ## Data model -/

/-- Record `Crypto` of `main.go`: one cached asset. -/
structure Crypto where
  Name : String
  Symbol : String
  Price : ℚ
  Change : String
deriving DecidableEq, Repr

/-- Go zero value of `Crypto` (`var topGainer, topLoser Crypto`). -/
def Crypto.zero : Crypto := ⟨"", "", 0, ""⟩

/-- Payload handed to `c.JSON`, or the rows handed to the CSV writer. -/
inductive Body where
  | cryptos (cs : List Crypto)
  | crypto (c : Crypto)
  | message (m : String)
  | gainerLoser (top_gainer top_loser : Crypto)
  | csv (rows : List (List String))
deriving DecidableEq, Repr

/-- Response of a handler: status code, headers set through `c.Header`, body. -/
structure Response where
  status : Nat
  headers : List (String × String)
  body : Body
deriving DecidableEq, Repr

def StatusOK : Nat := 200
def StatusBadRequest : Nat := 400
def StatusNotFound : Nat := 404
def StatusInternalServerError : Nat := 500

/-- Call `c.JSON(status, body)` on a context with no header set by the handler. -/
def JSON (status : Nat) (body : Body) : Response := ⟨status, [], body⟩

/-! ## `sort.Slice`

For slices of at most 12 elements `sort.Slice` (Go 1.19 and later) runs the
insertion sort below (`insertionSortLessFunc`); longer slices go through
pattern-defeating quicksort, whose result is again ordered by `less` and can
differ from the insertion sort only in the relative order of elements that
compare equal.  The model runs the insertion sort at every length. -/

/-- Inner loop of the insertion sort, `for j := i; j > a && less(j, j-1); j--`
with `swap(j, j-1)`: the element `x` moves left while it is less than its left
neighbour.  The already sorted prefix is given with its last element first. -/
def sinkLeft {α : Type} (less : α → α → Bool) (x : α) : List α → List α
  | [] => [x]
  | y :: ys => if less x y then y :: sinkLeft less x ys else x :: y :: ys

/-- Outer loop of the insertion sort: the elements are taken from left to right
and each is sunk into the prefix sorted so far. -/
def sortSlice {α : Type} (less : α → α → Bool) (xs : List α) : List α :=
  (xs.foldl (fun pre x => sinkLeft less x pre) []).reverse

/-! ## Handlers that list and sort -/

/-- Handler `getCryptoData`: `c.JSON(http.StatusOK, cryptos)`. -/
def getCryptoData (cryptos : List Crypto) : Response × List Crypto :=
  (JSON StatusOK (.cryptos cryptos), cryptos)

/-- Call `c.DefaultQuery(key, dflt)`: the value of the query parameter when the
key is present (also when its value is empty), the default otherwise. -/
def DefaultQuery (param : Option String) (dflt : String) : String :=
  match param with
  | some v => v
  | none => dflt

/-- Handler `sortCryptos`; `order` is the query parameter `order` if present. -/
def sortCryptos (order : Option String) (cryptos : List Crypto) :
    Response × List Crypto :=
  let sortOrder := DefaultQuery order "asc"
  let cryptos :=
    if sortOrder = "asc" then
      sortSlice (fun a b => decide (a.Price < b.Price)) cryptos
    else
      sortSlice (fun a b => decide (a.Price > b.Price)) cryptos
  (JSON StatusOK (.cryptos cryptos), cryptos)

/-! ## `strings.ToUpper` and the search handler -/

/-- Rune mapping `unicode.ToUpper`: an ASCII rune is mapped by
`if 'a' <= r && r <= 'z' then r - ('a' - 'A')`, any other rune by the Unicode
case tables, which are the parameter `caseTable`. -/
def unicodeToUpper (caseTable : Char → Char) (r : Char) : Char :=
  if r.toNat ≤ 0x7F then
    (if 'a' ≤ r ∧ r ≤ 'z' then Char.ofNat (r.toNat - ('a'.toNat - 'A'.toNat)) else r)
  else caseTable r

/-- Library call `strings.ToUpper(s)`: every rune of `s` mapped by
`unicode.ToUpper` (the ASCII fast path of the library computes the same). -/
def ToUpper (caseTable : Char → Char) (s : String) : String :=
  ⟨s.data.map (unicodeToUpper caseTable)⟩

/-- Call `c.Query(key)`: the value of the query parameter, `""` when absent. -/
def Query (param : Option String) : String :=
  match param with
  | some v => v
  | none => ""

/-- Loop `for _, crypto := range cryptos` of `searchCrypto`, with its early
return on the first match and the 404 response after the loop. -/
def searchCrypto.loop (query : String) : List Crypto → Response
  | [] => JSON StatusNotFound (.message "Crypto not found")
  | crypto :: rest =>
    if crypto.Symbol = query then JSON StatusOK (.crypto crypto)
    else searchCrypto.loop query rest

/-- Handler `searchCrypto`; `symbol` is the query parameter `symbol` if present. -/
def searchCrypto (caseTable : Char → Char) (symbol : Option String)
    (cryptos : List Crypto) : Response × List Crypto :=
  let query := ToUpper caseTable (Query symbol)
  (searchCrypto.loop query cryptos, cryptos)

/-! ## `float64` values, `strings.Trim` and `strconv.ParseFloat` -/

/-- Values of type `float64` as far as `<`, `>` and `==` tell them apart: NaN, the
two infinities, and the finite values by their exact rational value. -/
inductive F64 where
  | nan
  | inf (neg : Bool)
  | fin (q : ℚ)
deriving DecidableEq, Repr

/-- Go `a < b` on `float64`: false whenever an operand is NaN. -/
def F64.lt : F64 → F64 → Bool
  | .nan, _ => false
  | _, .nan => false
  | .inf a, .inf b => a && !b
  | .inf a, .fin _ => a
  | .fin _, .inf b => !b
  | .fin a, .fin b => decide (a < b)

/-- Go `a > b` on `float64`. -/
def F64.gt (a b : F64) : Bool := F64.lt b a

/-- Go `a <= b` on `float64`: false whenever an operand is NaN. -/
def F64.le : F64 → F64 → Bool
  | .nan, _ => false
  | _, .nan => false
  | a, b => !F64.lt b a

/-- Library call `strings.Trim(s, cutset)`: `s` without its leading and trailing
code points contained in `cutset`. -/
def Trim (s cutset : String) : String :=
  let inCut := fun c => decide (c ∈ cutset.data)
  ⟨((s.data.reverse.dropWhile inCut).reverse).dropWhile inCut⟩

/-- Error kinds of `strconv`: `ErrSyntax` and `ErrRange`. -/
inductive NumError where
  | ErrSyntax
  | ErrRange
deriving DecidableEq, Repr

/-- Helper `lower(c)` of `strconv`: `c | ('x' - 'X')`, as a code point number. -/
def lower (c : Char) : Nat := c.toNat ||| ('x'.toNat - 'X'.toNat)

/-- Helper `commonPrefixLenIgnoreCase(s, prefix)` of `strconv`; `pre` is in
lower case. -/
def commonPrefixLenIgnoreCase : List Char → List Char → Nat
  | c :: s, p :: pre =>
    let c := if 'A' ≤ c ∧ c ≤ 'Z' then Char.ofNat (c.toNat + ('a'.toNat - 'A'.toNat)) else c
    if c ≠ p then 0 else commonPrefixLenIgnoreCase s pre + 1
  | _, _ => 0

/-- The body shared by the cases `'+', '-'` and `'i', 'I'` of `special`. -/
def special.infinity (neg : Bool) (nsign : Nat) (s : List Char) : Option (F64 × Nat) :=
  let n := commonPrefixLenIgnoreCase s "infinity".data
  let n := if 3 < n ∧ n < 8 then 3 else n
  if n = 3 ∨ n = 8 then some (.inf neg, nsign + n) else none

/-- Helper `special(s)` of `strconv`: the value and the number of characters
consumed when `s` starts with `inf`, `infinity` (optionally signed) or `nan`. -/
def special : List Char → Option (F64 × Nat)
  | [] => none
  | c :: s =>
    if c = '+' then special.infinity false 1 s
    else if c = '-' then special.infinity true 1 s
    else if c = 'i' ∨ c = 'I' then special.infinity false 0 (c :: s)
    else if c = 'n' ∨ c = 'N' then
      (if commonPrefixLenIgnoreCase (c :: s) "nan".data = 3 then some (.nan, 3) else none)
    else none

/-- Helper `underscoreOK` of `strconv`, its loop over the number proper; `i0` is
the class of the previous character (`'0'` digit or base prefix, `'_'`
underscore, `'!'` anything else, `'^'` start). -/
def underscoreOK.loop (hex : Bool) : Char → List Char → Bool
  | i0, [] => i0 ≠ '_'
  | i0, c :: s =>
    if ('0' ≤ c ∧ c ≤ '9') ∨ (hex = true ∧ 'a'.toNat ≤ lower c ∧ lower c ≤ 'f'.toNat) then
      underscoreOK.loop hex '0' s
    else if c = '_' then
      (if i0 ≠ '0' then false else underscoreOK.loop hex '_' s)
    else if i0 = '_' then false
    else underscoreOK.loop hex '!' s

/-- Helper `underscoreOK(s)` of `strconv`: underscores may only separate digits
or follow a base prefix. -/
def underscoreOK (s : List Char) : Bool :=
  let s := match s with
    | c :: t => if c = '-' ∨ c = '+' then t else s
    | [] => s
  match s with
  | c0 :: c1 :: t =>
    if c0 = '0' ∧ (lower c1 = 'b'.toNat ∨ lower c1 = 'o'.toNat ∨ lower c1 = 'x'.toNat) then
      underscoreOK.loop (decide (lower c1 = 'x'.toNat)) '0' t
    else underscoreOK.loop false '^' s
  | _ => underscoreOK.loop false '^' s

/-- What the digit loop of `readFloat` has seen.  The source keeps at most 19
(hex: 16) digits in `mantissa` and remembers in `trunc` that more followed,
which is enough for the conversion to round correctly; here `mantissa` holds
all digits and `fracDigits` counts those after the point, so that the number
read is `mantissa * base ^ (-fracDigits)`. -/
structure Digits where
  mantissa : Nat
  fracDigits : Nat
  sawdot : Bool
  sawdigits : Bool
  underscores : Bool
deriving DecidableEq, Repr

/-- Loop `for ; i < len(s); i++` over the mantissa in `readFloat`; returns what
was seen and the unread rest of the input. -/
def readFloat.digits (base : Nat) : List Char → Digits → Digits × List Char
  | [], d => (d, [])
  | c :: s, d =>
    if c = '_' then readFloat.digits base s { d with underscores := true }
    else if c = '.' then
      (if d.sawdot then (d, c :: s) else readFloat.digits base s { d with sawdot := true })
    else if '0' ≤ c ∧ c ≤ '9' then
      readFloat.digits base s
        { d with sawdigits := true
                 mantissa := d.mantissa * base + (c.toNat - '0'.toNat)
                 fracDigits := if d.sawdot then d.fracDigits + 1 else d.fracDigits }
    else if base = 16 ∧ 'a'.toNat ≤ lower c ∧ lower c ≤ 'f'.toNat then
      readFloat.digits base s
        { d with sawdigits := true
                 mantissa := d.mantissa * base + (lower c - 'a'.toNat + 10)
                 fracDigits := if d.sawdot then d.fracDigits + 1 else d.fracDigits }
    else (d, c :: s)

/-- Loop over the digits of the exponent in `readFloat`: `e` stops growing once
it has reached 10000; returns `e`, whether an underscore was seen, the rest. -/
def readFloat.expDigits : List Char → Nat → Bool → Nat × Bool × List Char
  | [], e, u => (e, u, [])
  | c :: s, e, u =>
    if '0' ≤ c ∧ c ≤ '9' then
      readFloat.expDigits s (if e < 10000 then e * 10 + (c.toNat - '0'.toNat) else e) u
    else if c = '_' then readFloat.expDigits s e true
    else (e, u, c :: s)

/-- Result of `readFloat`: the number read is
`(-1)^neg * mantissa * (if hex then 2 else 10) ^ exp`; `rest` is the unread input. -/
structure ReadFloat where
  mantissa : Nat
  exp : Int
  neg : Bool
  hex : Bool
  rest : List Char
deriving DecidableEq, Repr

/-- Helper `readFloat(s)` of `strconv`; `none` is `ok == false`. -/
def readFloat (s : List Char) : Option ReadFloat :=
  match s with
  | [] => none
  | c :: t =>
    -- optional sign
    let neg := decide (c = '-')
    let s1 := if c = '+' ∨ c = '-' then t else s
    -- optional base prefix, needs one more character after it
    let hex := match s1 with
      | c0 :: c1 :: _ :: _ => decide (c0 = '0' ∧ lower c1 = 'x'.toNat)
      | _ => false
    let base := if hex then 16 else 10
    let s2 := if hex then s1.drop 2 else s1
    let (d, s3) := readFloat.digits base s2 ⟨0, 0, false, false, false⟩
    if !d.sawdigits then none
    else
      let frac : Int := if hex then 4 * (d.fracDigits : Int) else (d.fracDigits : Int)
      let expChar := if hex then 'p'.toNat else 'e'.toNat
      let finish := fun (e : Int) (underscores : Bool) (rest : List Char) =>
        if underscores ∧ !underscoreOK (s.take (s.length - rest.length)) then none
        else some (ReadFloat.mk d.mantissa (if d.mantissa ≠ 0 then e - frac else 0) neg hex rest)
      match s3 with
      | ec :: s4 =>
        if lower ec = expChar then
          match s4 with
          | [] => none
          | sc :: s5 =>
            let esign : Int := if sc = '-' then -1 else 1
            let s6 := if sc = '+' ∨ sc = '-' then s5 else s4
            match s6 with
            | [] => none
            | dc :: _ =>
              if dc < '0' ∨ dc > '9' then none
              else
                let (e, u, rest) := readFloat.expDigits s6 0 d.underscores
                finish ((e : Int) * esign) u rest
        else if hex then none
        else finish 0 d.underscores s3
      | [] => if hex then none else finish 0 d.underscores s3

/-- Number of binary digits of `n` minus one (`0` for `n = 0`). -/
def natLog2.go : Nat → Nat → Nat
  | 0, _ => 0
  | fuel + 1, n => if n < 2 then 0 else natLog2.go fuel (n / 2) + 1

/-- Position of the highest set bit of `n`. -/
def natLog2 (n : Nat) : Nat := natLog2.go n n

/-- The integer nearest to `num / den`, the even one of the two at a tie. -/
def roundHalfEven (num den : Nat) : Nat :=
  let q := num / den
  let r := num % den
  if 2 * r < den then q
  else if den < 2 * r then q + 1
  else if q % 2 = 0 then q else q + 1

/-- Largest `e` with `2 ^ e ≤ num / den`, for positive `num` and `den`. -/
def floorLog2 (num den : Nat) : Int :=
  let l : Int := (natLog2 num : Int) - (natLog2 den : Int)
  if 0 ≤ l then (if den <<< l.toNat ≤ num then l else l - 1)
  else (if den ≤ num <<< (-l).toNat then l else l - 1)

/-- IEEE 754 round-to-nearest-even of the positive rational `num / den` to a
`float64` (53 bits of precision, exponents from -1022 to 1023, gradual
underflow); `none` when the rounded value exceeds the largest finite
`float64`. -/
def roundFloat64 (num den : Nat) : Option ℚ :=
  if num = 0 then some 0
  else
    let e := floorLog2 num den
    let qe := max e (-1022) - 52
    let n := if 0 ≤ qe then roundHalfEven num (den <<< qe.toNat)
             else roundHalfEven (num <<< (-qe).toNat) den
    let top := if 2 ^ 53 ≤ n then qe + 53 else qe + 52
    if 1024 ≤ top then none
    else if 0 ≤ qe then some ((n <<< qe.toNat : Nat) : ℚ)
    else some (mkRat (n : Int) (1 <<< (-qe).toNat))

/-- Library call `strconv.ParseFloat(s, 64)`: decimal and hexadecimal
floating-point literals of the Go syntax, `inf`, `infinity` and `nan` in any
case; the nearest `float64` under round-to-nearest-even, `ErrRange` when that
is beyond the largest finite value, `ErrSyntax` when `s` is not well formed or
not consumed to its end. -/
def ParseFloat (s : String) : Except NumError F64 :=
  let cs := s.data
  match special cs with
  | some (f, n) => if n = cs.length then .ok f else .error .ErrSyntax
  | none =>
    match readFloat cs with
    | none => .error .ErrSyntax
    | some r =>
      if r.rest ≠ [] then .error .ErrSyntax
      else
        let base := if r.hex then 2 else 10
        let rounded := if 0 ≤ r.exp then roundFloat64 (r.mantissa * base ^ r.exp.toNat) 1
                       else roundFloat64 r.mantissa (base ^ (-r.exp).toNat)
        match rounded with
        | none => .error .ErrRange
        | some q => .ok (.fin (if r.neg then -q else q))

/-! ## Top gainer and top loser -/

/-- Locals of `getTopGainerLoser` that the loop updates. -/
structure Scan where
  topGainer : Crypto
  topLoser : Crypto
  topGainerChange : F64
  topLoserChange : F64
deriving DecidableEq, Repr

/-- The two statements `changeStr := strings.Trim(crypto.Change, " %")` and
`strconv.ParseFloat(changeStr, 64)` of the loop body. -/
def parseChange (crypto : Crypto) : Except NumError F64 :=
  let changeStr := Trim crypto.Change " %"
  ParseFloat changeStr

/-- Body of the loop of `getTopGainerLoser` for one record. -/
def getTopGainerLoser.step (st : Scan) (crypto : Crypto) : Scan :=
  match parseChange crypto with
  | .error _ => st
  | .ok changePercentage =>
    let st :=
      if F64.gt changePercentage st.topGainerChange then
        { st with topGainerChange := changePercentage, topGainer := crypto }
      else st
    if F64.lt changePercentage st.topLoserChange then
      { st with topLoserChange := changePercentage, topLoser := crypto }
    else st

/-- Handler `getTopGainerLoser`. -/
def getTopGainerLoser (cryptos : List Crypto) : Response × List Crypto :=
  if cryptos.length = 0 then
    (JSON StatusBadRequest (.message "No crypto data available"), cryptos)
  else
    let init : Scan := ⟨Crypto.zero, Crypto.zero, .fin (-100), .fin 100⟩
    let st := cryptos.foldl getTopGainerLoser.step init
    (JSON StatusOK (.gainerLoser st.topGainer st.topLoser), cryptos)

/-! ## CSV snapshot and download -/

/-- Library call `fmt.Sprintf("%.2f", x)` on a finite value: sign, integer part,
point, two decimals; the value is rounded to the nearest hundredth, ties to
even. -/
def Sprintf2f (x : ℚ) : String :=
  let n := roundHalfEven (x.num.natAbs * 100) x.den
  let frac := n % 100
  (if x < 0 then "-" else "") ++ toString (n / 100) ++ "." ++
    (if frac < 10 then "0" else "") ++ toString frac

/-- Function `saveToCSV`: the rows handed to the CSV writer of the file
`crypto_data.csv`, in order; `none` when `os.Create` fails (`createErr`), in
which case the function returns before writing anything. -/
def saveToCSV (createErr : Bool) (cryptos : List Crypto) : Option (List (List String)) :=
  if createErr then none
  else
    let headers := ["Name", "Symbol", "Price (USD)", "24h Change"]
    let writer : List (List String) := [headers]
    some (cryptos.foldl (fun writer crypto =>
      writer ++ [[crypto.Name, crypto.Symbol, Sprintf2f crypto.Price, crypto.Change]]) writer)

/-- Handler `downloadCSV`: the two headers and the rows handed to the CSV writer
of the response, in order. -/
def downloadCSV (cryptos : List Crypto) : Response × List Crypto :=
  let headers := [("Content-Type", "text/csv"),
    ("Content-Disposition", "attachment; filename=crypto_data.csv")]
  let writer : List (List String) := [["Name", "Symbol", "Price (USD)", "24h Change"]]
  let writer := cryptos.foldl (fun writer crypto =>
      writer ++ [[crypto.Name, crypto.Symbol, Sprintf2f crypto.Price, crypto.Change]]) writer
  (⟨StatusOK, headers, .csv writer⟩, cryptos)

/-! ## Notions used to state what the scan returns -/

/-- The value `m` is the maximum over all records that parse: some record of
the cache parses to `m` and the parsed change of every record that parses is
`<= m` (the comparison of `float64`). -/
def IsMaxChange (cryptos : List Crypto) (m : F64) : Prop :=
  (∃ r ∈ cryptos, parseChange r = .ok m) ∧
    ∀ r ∈ cryptos, ∀ v, parseChange r = .ok v → F64.le v m = true

/-- The value `m` is the minimum over all records that parse. -/
def IsMinChange (cryptos : List Crypto) (m : F64) : Prop :=
  (∃ r ∈ cryptos, parseChange r = .ok m) ∧
    ∀ r ∈ cryptos, ∀ v, parseChange r = .ok v → F64.le m v = true

/-- The value `m` is the maximum over all records that parse to a number, that
is to a value other than NaN. -/
def IsMaxNumber (cryptos : List Crypto) (m : F64) : Prop :=
  m ≠ .nan ∧ (∃ r ∈ cryptos, parseChange r = .ok m) ∧
    ∀ r ∈ cryptos, ∀ v, parseChange r = .ok v → v ≠ .nan → F64.le v m = true

/-- The value `m` is the minimum over all records that parse to a number, that
is to a value other than NaN. -/
def IsMinNumber (cryptos : List Crypto) (m : F64) : Prop :=
  m ≠ .nan ∧ (∃ r ∈ cryptos, parseChange r = .ok m) ∧
    ∀ r ∈ cryptos, ∀ v, parseChange r = .ok v → v ≠ .nan → F64.le m v = true

/-- The record `r` is the first record in cache order whose parsed change is `m`. -/
def IsFirstWithChange (cryptos : List Crypto) (m : F64) (r : Crypto) : Prop :=
  ∃ pre post, cryptos = pre ++ r :: post ∧ parseChange r = .ok m ∧
    ∀ x ∈ pre, parseChange x ≠ .ok m

/-- What C6 says of `top_gainer`, word for word: the first record whose parsed
change is the maximum over all records that parse, provided that maximum is
strictly greater than -100, and the zero-value record otherwise. -/
def TopGainerAsStated (cryptos : List Crypto) (g : Crypto) : Prop :=
  (∀ m, IsMaxChange cryptos m → F64.gt m (.fin (-100)) = true →
      IsFirstWithChange cryptos m g) ∧
    ((¬ ∃ m, IsMaxChange cryptos m ∧ F64.gt m (.fin (-100)) = true) → g = Crypto.zero)

/-- What C6 says of `top_loser`, word for word: the first record whose parsed
change is the minimum over all records that parse, provided that minimum is
strictly less than 100, and the zero-value record otherwise. -/
def TopLoserAsStated (cryptos : List Crypto) (l : Crypto) : Prop :=
  (∀ m, IsMinChange cryptos m → F64.lt m (.fin 100) = true →
      IsFirstWithChange cryptos m l) ∧
    ((¬ ∃ m, IsMinChange cryptos m ∧ F64.lt m (.fin 100) = true) → l = Crypto.zero)

/-- One of the two running pairs of the scan followed on its own: the record
kept so far and its parsed change, replaced by every record whose parsed change
is `better` than the one kept. -/
def bestBy (better : F64 → F64 → Bool) (cryptos : List Crypto) (init : Crypto × F64) :
    Crypto × F64 :=
  cryptos.foldl (fun acc crypto =>
    match parseChange crypto with
    | .error _ => acc
    | .ok v => if better v acc.2 then (crypto, v) else acc) init

/-- Rows of the CSV output in the words of the specification: the header row
followed by one row per cached record, in cache order, each row being the name,
the symbol, the price with two decimals and the change as it is stored. -/
def csvRowsSpec (cryptos : List Crypto) : List (List String) :=
  ["Name", "Symbol", "Price (USD)", "24h Change"] ::
    cryptos.map (fun r => [r.Name, r.Symbol, Sprintf2f r.Price, r.Change])

/-! ## Refresh: `strings.Title`, the decoded response, `fetchCryptoData` -/

/-- The Unicode tables `strings.Title` consults for runes beyond ASCII:
`unicode.ToTitle`, `unicode.IsLetter`, `unicode.IsDigit`, `unicode.IsSpace`. -/
structure TitleTables where
  toTitle : Char → Char
  isLetter : Char → Bool
  isDigit : Char → Bool
  isSpace : Char → Bool

/-- Helper `isSeparator(r)` of `strings`: ASCII alphanumerics and underscore are
no separators, every other ASCII rune is one; beyond ASCII letters and digits
are no separators and of the rest only the spaces are. -/
def isSeparator (tables : TitleTables) (r : Char) : Bool :=
  if r.toNat ≤ 0x7F then
    (if '0' ≤ r ∧ r ≤ '9' then false
     else if 'a' ≤ r ∧ r ≤ 'z' then false
     else if 'A' ≤ r ∧ r ≤ 'Z' then false
     else if r = '_' then false
     else true)
  else if tables.isLetter r || tables.isDigit r then false
  else tables.isSpace r

/-- Rune mapping `unicode.ToTitle`: an ASCII rune is mapped by
`if 'a' <= r && r <= 'z' then r - ('a' - 'A')`, any other rune by the tables. -/
def unicodeToTitle (tables : TitleTables) (r : Char) : Char :=
  if r.toNat ≤ 0x7F then
    (if 'a' ≤ r ∧ r ≤ 'z' then Char.ofNat (r.toNat - ('a'.toNat - 'A'.toNat)) else r)
  else tables.toTitle r

/-- The closure `strings.Title` maps over the runes; `prev` is the rune seen
before (a space at the start): a rune that follows a separator is mapped to
title case, any other rune stays. -/
def Title.go (tables : TitleTables) : Char → List Char → List Char
  | _, [] => []
  | prev, r :: s =>
    (if isSeparator tables prev then unicodeToTitle tables r else r) :: Title.go tables r s

/-- Library call `strings.Title(s)`: the letters that begin words mapped to
title case. -/
def Title (tables : TitleTables) (s : String) : String :=
  ⟨Title.go tables ' ' s.data⟩

/-- A Go map with string keys as `for k, v := range m` walks it: its entries in
the order of the iteration (which the language leaves open), no key twice. -/
structure GoMap (V : Type) where
  entries : List (String × V)
  nodup : (entries.map Prod.fst).Nodup

/-- Index expression `m[key]` on a `map[string]float64`: the value stored under
`key`, the zero value when the key is absent. -/
def GoMap.index (m : GoMap ℚ) (key : String) : ℚ :=
  match m.entries.lookup key with
  | some v => v
  | none => 0

/-- What `http.Get` and the JSON decoder deliver to `fetchCryptoData`: a
transport error, a body that does not decode into
`map[string]map[string]float64`, or the decoded mapping (JSON numbers decode to
finite values). -/
inductive Upstream where
  | getError
  | decodeError
  | decoded (result : GoMap (GoMap ℚ))

/-- The identifiers `fetchCryptoData` asks the price API for. -/
def cryptoSymbols : List String :=
  ["bitcoin", "ethereum", "ripple", "solana", "dogecoin", "cardano", "shiba-inu"]

/-- Library call `fmt.Sprintf("%.2f%%", x)` on a finite value. -/
def Sprintf2fPercent (x : ℚ) : String := Sprintf2f x ++ "%"

/-- The process state the refresh works on: the cache `cryptos` and the rows of
the file `crypto_data.csv` (`none` while the file does not exist). -/
structure State where
  cryptos : List Crypto
  file : Option (List (List String))

/-- Handler `fetchCryptoData`.  The request always goes to the same URL, built
from `cryptoSymbols`; `upstream` is what comes back and `createErr` whether
`os.Create` fails inside `saveToCSV` (the results of the writes to a created
file are not looked at by the source). -/
def fetchCryptoData (caseTable : Char → Char) (tables : TitleTables) (upstream : Upstream)
    (createErr : Bool) (st : State) : Response × State :=
  match upstream with
  | .getError =>
    (JSON StatusInternalServerError (.message "Failed to fetch crypto data"), st)
  | .decodeError =>
    (JSON StatusInternalServerError (.message "Error decoding response"), st)
  | .decoded result =>
    -- Clear existing cryptos
    let cryptos : List Crypto := []
    -- Parse and store data
    let cryptos := result.entries.foldl (fun cryptos entry =>
      cryptos ++ [{ Name := Title tables entry.1
                    Symbol := ToUpper caseTable entry.1
                    Price := entry.2.index "usd"
                    Change := Sprintf2fPercent (entry.2.index "usd_24h_change") }]) cryptos
    -- Save data to CSV
    let file := match saveToCSV createErr cryptos with
      | none => st.file
      | some rows => some rows
    (JSON StatusOK (.message "Crypto data fetched successfully!"), ⟨cryptos, file⟩)

/-- The record the specification asks for per identifier of the decoded mapping:
name the identifier capitalized, symbol the identifier uppercased, price the
`usd` value, change the `usd_24h_change` value with two decimals and a
trailing '%'. -/
def recordSpec (caseTable : Char → Char) (tables : TitleTables) (id : String)
    (data : GoMap ℚ) : Crypto :=
  ⟨Title tables id, ToUpper caseTable id, data.index "usd",
    Sprintf2fPercent (data.index "usd_24h_change")⟩

/-- The string is a decimal with exactly two fractional digits followed by '%':
an optional '-', one or more digits, a point, two digits, '%'. -/
def isTwoDecimalPercent (s : String) : Bool :=
  let cs := match s.data with
    | c :: t => if c = '-' then t else c :: t
    | [] => []
  let isDig := fun (c : Char) => decide ('0' ≤ c ∧ c ≤ '9')
  let intPart := cs.takeWhile isDig
  !intPart.isEmpty &&
    match cs.dropWhile isDig with
    | [p, a, b, q] => p = '.' && isDig a && isDig b && q = '%'
    | _ => false

/-- The largest finite `float64`, `(2 ^ 53 - 1) * 2 ^ 971`. -/
def maxFloat64 : ℚ := ((2 ^ 53 - 1) * 2 ^ 971 : Nat)

/-- The number a sequence of decimal digits writes, most significant digit
first. -/
def digitsVal (l : List Char) : Nat :=
  l.foldl (fun m c => m * 10 + (c.toNat - '0'.toNat)) 0

/-- The character is one of '0' to '9'. -/
def isDecDigit (c : Char) : Bool := decide ('0' ≤ c ∧ c ≤ '9')

/-- What C12 asks of the cache after a refresh: one record per requested
identifier, its symbol the identifier uppercased, and every change a decimal
with two fractional digits followed by '%'. -/
def OneRecordPerRequested (caseTable : Char → Char) (cryptos : List Crypto) : Prop :=
  (cryptos.map (fun r => r.Symbol)).Perm (cryptoSymbols.map (ToUpper caseTable)) ∧
    ∀ r ∈ cryptos, isTwoDecimalPercent r.Change = true

/-- Tables for the examples: no rune beyond ASCII is changed or counts as a
letter, digit or space. -/
def plainTables : TitleTables := ⟨id, fun _ => false, fun _ => false, fun _ => false⟩

/-- A decoded response that holds one of the requested identifiers only:
`{"bitcoin": {"usd": 50000, "usd_24h_change": 1.5}}`. -/
def bitcoinOnly : GoMap (GoMap ℚ) :=
  ⟨[("bitcoin", ⟨[("usd", 50000), ("usd_24h_change", mkRat 3 2)], by decide⟩)], by decide⟩

/-- A decoded response that holds all the requested identifiers, in an order
of iteration that is not the order of the request. -/
def fullResponse : GoMap (GoMap ℚ) :=
  ⟨[("solana", ⟨[("usd", 150), ("usd_24h_change", mkRat (-171) 50)], by decide⟩),
    ("bitcoin", ⟨[("usd", 50000), ("usd_24h_change", mkRat 3 2)], by decide⟩),
    ("shiba-inu", ⟨[("usd", mkRat 1 100000), ("usd_24h_change", 120)], by decide⟩),
    ("ethereum", ⟨[("usd", 3000), ("usd_24h_change", mkRat (-1) 1000)], by decide⟩),
    ("ripple", ⟨[("usd", mkRat 1 2)], by decide⟩),
    ("dogecoin", ⟨[("usd_24h_change", mkRat 1 8), ("usd", mkRat 1 10)], by decide⟩),
    ("cardano", ⟨[("usd", mkRat 2 5), ("usd_24h_change", -100)], by decide⟩)], by decide⟩

/-- The absolute value of `v` in hundredths, rounded to the nearest hundredth,
ties to even: the digits `%.2f` prints for `v`. -/
def hundredths (v : ℚ) : Nat := roundHalfEven (v.num.natAbs * 100) v.den

/-- The value `v` rounded to two decimal places. -/
def round2 (v : ℚ) : ℚ :=
  if v < 0 then -((hundredths v : ℚ) / 100) else (hundredths v : ℚ) / 100

/-! ## Facts about the insertion sort -/

theorem sinkLeft_perm {α : Type} (less : α → α → Bool) (x : α) (pre : List α) :
    (sinkLeft less x pre).Perm (x :: pre) := by
  induction pre with
  | nil => simp [sinkLeft]
  | cons y ys ih =>
    unfold sinkLeft
    split
    · exact (List.Perm.cons y ih).trans (List.Perm.swap x y ys)
    · exact List.Perm.refl _

theorem foldl_sinkLeft_perm {α : Type} (less : α → α → Bool) (xs pre : List α) :
    (xs.foldl (fun pre x => sinkLeft less x pre) pre).Perm (xs ++ pre) := by
  induction xs generalizing pre with
  | nil => simp
  | cons x xs ih =>
    simp only [List.foldl_cons, List.cons_append]
    refine (ih _).trans ?_
    refine (List.Perm.append_left xs (sinkLeft_perm less x pre)).trans ?_
    exact List.perm_middle

theorem sortSlice_perm {α : Type} (less : α → α → Bool) (xs : List α) :
    (sortSlice less xs).Perm xs := by
  unfold sortSlice
  refine (List.reverse_perm _).trans ?_
  simpa using foldl_sinkLeft_perm less xs []

/-- Sinking an element into a prefix keeps the prefix ordered, provided `less`
is the strict part of a total preorder `le` (the prefix is held last element
first, so it is ordered by the converse of `le`). -/
theorem sinkLeft_pairwise {α : Type} (less : α → α → Bool) (le : α → α → Prop)
    (htrans : ∀ a b c, le a b → le b c → le a c)
    (hless : ∀ a b, less a b = true → le a b)
    (hnot : ∀ a b, less a b = false → le b a)
    (x : α) (pre : List α) (h : pre.Pairwise (fun a b => le b a)) :
    (sinkLeft less x pre).Pairwise (fun a b => le b a) := by
  induction pre with
  | nil => simp [sinkLeft]
  | cons y ys ih =>
    obtain ⟨hy, hys⟩ := List.pairwise_cons.mp h
    unfold sinkLeft
    cases hxy : less x y with
    | true =>
      simp only [if_true]
      refine List.Pairwise.cons ?_ (ih hys)
      intro z hz
      rcases List.mem_cons.mp ((sinkLeft_perm less x ys).mem_iff.mp hz) with hzx | hzy
      · rw [hzx]
        exact hless _ _ hxy
      · exact hy z hzy
    | false =>
      simp only [Bool.false_eq_true, if_false]
      refine List.Pairwise.cons ?_ h
      intro z hz
      rcases List.mem_cons.mp hz with hzy | hzy
      · rw [hzy]
        exact hnot _ _ hxy
      · exact htrans _ _ _ (hy z hzy) (hnot _ _ hxy)

theorem foldl_sinkLeft_pairwise {α : Type} (less : α → α → Bool) (le : α → α → Prop)
    (htrans : ∀ a b c, le a b → le b c → le a c)
    (hless : ∀ a b, less a b = true → le a b)
    (hnot : ∀ a b, less a b = false → le b a)
    (xs pre : List α) (h : pre.Pairwise (fun a b => le b a)) :
    (xs.foldl (fun pre x => sinkLeft less x pre) pre).Pairwise (fun a b => le b a) := by
  induction xs generalizing pre with
  | nil => simpa using h
  | cons x xs ih =>
    simp only [List.foldl_cons]
    exact ih _ (sinkLeft_pairwise less le htrans hless hnot x pre h)

/-- The insertion sort orders its input by any total preorder `le` of which
`less` is the strict part. -/
theorem sortSlice_pairwise {α : Type} (less : α → α → Bool) (le : α → α → Prop)
    (htrans : ∀ a b c, le a b → le b c → le a c)
    (hless : ∀ a b, less a b = true → le a b)
    (hnot : ∀ a b, less a b = false → le b a)
    (xs : List α) : (sortSlice less xs).Pairwise le := by
  unfold sortSlice
  rw [List.pairwise_reverse]
  exact foldl_sinkLeft_pairwise less le htrans hless hnot xs [] List.Pairwise.nil

theorem sortSlice_price_asc (cryptos : List Crypto) :
    (sortSlice (fun a b => decide (a.Price < b.Price)) cryptos).Pairwise
      (fun a b => a.Price ≤ b.Price) := by
  apply sortSlice_pairwise
  · intro a b c hab hbc
    exact le_trans hab hbc
  · intro a b h
    exact le_of_lt (of_decide_eq_true h)
  · intro a b h
    exact not_lt.mp (of_decide_eq_false h)

theorem sortSlice_price_desc (cryptos : List Crypto) :
    (sortSlice (fun a b => decide (a.Price > b.Price)) cryptos).Pairwise
      (fun a b => a.Price ≥ b.Price) := by
  apply sortSlice_pairwise
  · intro a b c hab hbc
    exact le_trans hbc hab
  · intro a b h
    exact le_of_lt (of_decide_eq_true h)
  · intro a b h
    exact not_lt.mp (of_decide_eq_false h)

theorem sortCryptos_asc_eq (cryptos : List Crypto) :
    sortCryptos (some "asc") cryptos =
      (JSON StatusOK (.cryptos (sortSlice (fun a b => decide (a.Price < b.Price)) cryptos)),
        sortSlice (fun a b => decide (a.Price < b.Price)) cryptos) := by
  simp [sortCryptos, DefaultQuery]

theorem sortCryptos_none_eq (cryptos : List Crypto) :
    sortCryptos none cryptos =
      (JSON StatusOK (.cryptos (sortSlice (fun a b => decide (a.Price < b.Price)) cryptos)),
        sortSlice (fun a b => decide (a.Price < b.Price)) cryptos) := by
  simp [sortCryptos, DefaultQuery]

theorem sortCryptos_other_eq (order : String) (h : order ≠ "asc") (cryptos : List Crypto) :
    sortCryptos (some order) cryptos =
      (JSON StatusOK (.cryptos (sortSlice (fun a b => decide (a.Price > b.Price)) cryptos)),
        sortSlice (fun a b => decide (a.Price > b.Price)) cryptos) := by
  simp [sortCryptos, DefaultQuery, h]

theorem sortCryptos_eq_perm (order : Option String) (cryptos : List Crypto) :
    ∃ sorted, sortCryptos order cryptos = (JSON StatusOK (.cryptos sorted), sorted) ∧
      sorted.Perm cryptos := by
  cases order with
  | none => exact ⟨_, sortCryptos_none_eq cryptos, sortSlice_perm _ _⟩
  | some o =>
    by_cases h : o = "asc"
    · subst h
      exact ⟨_, sortCryptos_asc_eq cryptos, sortSlice_perm _ _⟩
    · exact ⟨_, sortCryptos_other_eq o h cryptos, sortSlice_perm _ _⟩

/-! ## C1 to C3: sorting -/

/-- C1: with `order=asc`, and with the parameter `order` absent, `sortCryptos`
answers 200 with the sequence it leaves in the cache, and in that sequence
every record's price is at most the price of the record right after it. -/
theorem sortCryptos_asc_nondecreasing (cryptos : List Crypto) :
    (∃ sorted, sortCryptos (some "asc") cryptos = (JSON StatusOK (.cryptos sorted), sorted) ∧
      List.Chain' (fun a b => a.Price ≤ b.Price) sorted) ∧
    (∃ sorted, sortCryptos none cryptos = (JSON StatusOK (.cryptos sorted), sorted) ∧
      List.Chain' (fun a b => a.Price ≤ b.Price) sorted) :=
  ⟨⟨_, sortCryptos_asc_eq cryptos, (sortSlice_price_asc cryptos).chain'⟩,
   ⟨_, sortCryptos_none_eq cryptos, (sortSlice_price_asc cryptos).chain'⟩⟩

/-- C2: for every value of `order` other than `"asc"`, `sortCryptos` answers 200
(never an error) with the sequence it leaves in the cache, and in that sequence
every record's price is at least the price of the record right after it. -/
theorem sortCryptos_other_nonincreasing (order : String) (h : order ≠ "asc")
    (cryptos : List Crypto) :
    ∃ sorted, sortCryptos (some order) cryptos = (JSON StatusOK (.cryptos sorted), sorted) ∧
      (JSON StatusOK (.cryptos sorted)).status = 200 ∧
      List.Chain' (fun a b => a.Price ≥ b.Price) sorted :=
  ⟨_, sortCryptos_other_eq order h cryptos, rfl, (sortSlice_price_desc cryptos).chain'⟩

/-- C2 at the order `"desc"` on a cache of three records. -/
theorem sortCryptos_other_nonincreasing_witness :
    "desc" ≠ "asc" ∧
    ∃ sorted, sortCryptos (some "desc")
        [⟨"Bitcoin", "BITCOIN", 3, "1.00%"⟩, ⟨"Ripple", "RIPPLE", 1, "2.00%"⟩,
         ⟨"Solana", "SOLANA", 2, "3.00%"⟩] = (JSON StatusOK (.cryptos sorted), sorted) ∧
      (JSON StatusOK (.cryptos sorted)).status = 200 ∧
      List.Chain' (fun a b => a.Price ≥ b.Price) sorted :=
  ⟨by decide, sortCryptos_other_nonincreasing "desc" (by decide) _⟩

/-- C3: for every value of `order`, present or not, the sequence `sortCryptos`
returns is a permutation of the cache before the call, it is the cache after
the call, and `getCryptoData` called next returns exactly that sequence and
leaves it in place. -/
theorem sortCryptos_permutation (order : Option String) (cryptos : List Crypto) :
    ∃ sorted, sortCryptos order cryptos = (JSON StatusOK (.cryptos sorted), sorted) ∧
      sorted.Perm cryptos ∧
      getCryptoData (sortCryptos order cryptos).2 = (JSON StatusOK (.cryptos sorted), sorted) := by
  cases order with
  | none =>
    exact ⟨_, sortCryptos_none_eq cryptos, sortSlice_perm _ _, by
      rw [sortCryptos_none_eq]; rfl⟩
  | some o =>
    by_cases h : o = "asc"
    · subst h
      exact ⟨_, sortCryptos_asc_eq cryptos, sortSlice_perm _ _, by
        rw [sortCryptos_asc_eq]; rfl⟩
    · exact ⟨_, sortCryptos_other_eq o h cryptos, sortSlice_perm _ _, by
        rw [sortCryptos_other_eq o h]; rfl⟩

/-! ## C4 and C5: search -/

theorem searchLoop_first (query : String) (pre : List Crypto) (r : Crypto)
    (post : List Crypto) (hr : r.Symbol = query) (hpre : ∀ x ∈ pre, x.Symbol ≠ query) :
    searchCrypto.loop query (pre ++ r :: post) = JSON StatusOK (.crypto r) := by
  induction pre with
  | nil => simp [searchCrypto.loop, hr]
  | cons x xs ih =>
    have hx : x.Symbol ≠ query := hpre x (List.mem_cons_self _ _)
    have hxs : ∀ y ∈ xs, y.Symbol ≠ query := fun y hy => hpre y (List.mem_cons_of_mem _ hy)
    simp [searchCrypto.loop, hx, ih hxs]

theorem searchLoop_notFound_iff (query : String) (cryptos : List Crypto) :
    searchCrypto.loop query cryptos = JSON StatusNotFound (.message "Crypto not found") ↔
      ∀ x ∈ cryptos, x.Symbol ≠ query := by
  induction cryptos with
  | nil => simp [searchCrypto.loop]
  | cons x xs ih =>
    by_cases hx : x.Symbol = query
    · simp [searchCrypto.loop, hx, JSON, StatusOK, StatusNotFound]
    · simp [searchCrypto.loop, hx, ih]

/-- A list either has a first element satisfying a decidable property or none
of its elements satisfies it. -/
theorem first_or_none {α : Type} (p : α → Prop) [DecidablePred p] (l : List α) :
    (∃ pre r post, l = pre ++ r :: post ∧ p r ∧ ∀ x ∈ pre, ¬ p x) ∨ ∀ x ∈ l, ¬ p x := by
  induction l with
  | nil => right; simp
  | cons a l ih =>
    by_cases ha : p a
    · left
      exact ⟨[], a, l, rfl, ha, by simp⟩
    · rcases ih with ⟨pre, r, post, hl, hr, hpre⟩ | hnone
      · left
        refine ⟨a :: pre, r, post, by simp [hl], hr, ?_⟩
        intro x hx
        rcases List.mem_cons.mp hx with h | h
        · rw [h]; exact ha
        · exact hpre x h
      · right
        intro x hx
        rcases List.mem_cons.mp hx with h | h
        · rw [h]; exact ha
        · exact hnone x h

/-- C4: for every cache and every query, `searchCrypto` answers either 200 with
the first record in cache order whose symbol equals the uppercased query, or
404 with the message "Crypto not found"; the latter exactly when no record's
symbol equals the uppercased query, as for every query on the empty cache. The
cache is left as it was. -/
theorem searchCrypto_first_match_or_notFound (caseTable : Char → Char)
    (symbol : Option String) (cryptos : List Crypto) :
    ((∃ pre r post, cryptos = pre ++ r :: post ∧
          r.Symbol = ToUpper caseTable (Query symbol) ∧
          (∀ x ∈ pre, x.Symbol ≠ ToUpper caseTable (Query symbol)) ∧
          searchCrypto caseTable symbol cryptos = (JSON StatusOK (.crypto r), cryptos) ∧
          (JSON StatusOK (.crypto r)).status = 200) ∨
      ((∀ x ∈ cryptos, x.Symbol ≠ ToUpper caseTable (Query symbol)) ∧
          searchCrypto caseTable symbol cryptos =
            (JSON StatusNotFound (.message "Crypto not found"), cryptos) ∧
          (JSON StatusNotFound (.message "Crypto not found")).status = 404)) ∧
    ((searchCrypto caseTable symbol cryptos).1 =
        JSON StatusNotFound (.message "Crypto not found") ↔
      ∀ x ∈ cryptos, x.Symbol ≠ ToUpper caseTable (Query symbol)) ∧
    searchCrypto caseTable symbol [] =
      (JSON StatusNotFound (.message "Crypto not found"), []) := by
  refine ⟨?_, searchLoop_notFound_iff _ cryptos, rfl⟩
  rcases first_or_none (fun x : Crypto => x.Symbol = ToUpper caseTable (Query symbol)) cryptos
    with ⟨pre, r, post, hl, hr, hpre⟩ | hnone
  · left
    refine ⟨pre, r, post, hl, hr, hpre, ?_, rfl⟩
    show (searchCrypto.loop _ cryptos, cryptos) = _
    rw [hl, searchLoop_first _ pre r post hr hpre]
  · right
    refine ⟨hnone, ?_, rfl⟩
    show (searchCrypto.loop _ cryptos, cryptos) = _
    rw [(searchLoop_notFound_iff _ cryptos).mpr hnone]

theorem ToUpper_btc (caseTable : Char → Char) :
    ToUpper caseTable "btc" = "BTC" ∧ ToUpper caseTable "BTC" = "BTC" ∧
      ToUpper caseTable "Btc" = "BTC" :=
  ⟨rfl, rfl, rfl⟩

/-- C5: two queries whose uppercased forms are equal get the same response from
`searchCrypto` on every cache; and on every cache holding a record with symbol
"BTC" the queries "btc", "BTC" and "Btc" all get 200 with the first record
whose symbol is "BTC". -/
theorem searchCrypto_case_insensitive (caseTable : Char → Char) (cryptos : List Crypto) :
    (∀ q1 q2 : Option String,
      ToUpper caseTable (Query q1) = ToUpper caseTable (Query q2) →
      searchCrypto caseTable q1 cryptos = searchCrypto caseTable q2 cryptos) ∧
    (∀ pre r post, cryptos = pre ++ r :: post → r.Symbol = "BTC" →
      (∀ x ∈ pre, x.Symbol ≠ "BTC") →
      searchCrypto caseTable (some "btc") cryptos = (JSON StatusOK (.crypto r), cryptos) ∧
      searchCrypto caseTable (some "BTC") cryptos = (JSON StatusOK (.crypto r), cryptos) ∧
      searchCrypto caseTable (some "Btc") cryptos = (JSON StatusOK (.crypto r), cryptos)) := by
  constructor
  · intro q1 q2 h
    simp only [searchCrypto, h]
  · intro pre r post hl hr hpre
    obtain ⟨h1, h2, h3⟩ := ToUpper_btc caseTable
    have key : searchCrypto.loop "BTC" cryptos = JSON StatusOK (.crypto r) := by
      rw [hl]; exact searchLoop_first _ pre r post hr hpre
    refine ⟨?_, ?_, ?_⟩
    · show (searchCrypto.loop (ToUpper caseTable "btc") cryptos, cryptos) = _
      rw [h1, key]
    · show (searchCrypto.loop (ToUpper caseTable "BTC") cryptos, cryptos) = _
      rw [h2, key]
    · show (searchCrypto.loop (ToUpper caseTable "Btc") cryptos, cryptos) = _
      rw [h3, key]

/-- C5 on a cache with two records of symbol "BTC": every spelling of the query
gets the first of them. -/
theorem searchCrypto_case_insensitive_witness :
    searchCrypto id (some "btc")
        [⟨"Ethereum", "ETH", 2, "1.00%"⟩, ⟨"Bitcoin", "BTC", 3, "2.00%"⟩,
         ⟨"Bitcoin2", "BTC", 4, "3.00%"⟩] =
      (JSON StatusOK (.crypto ⟨"Bitcoin", "BTC", 3, "2.00%"⟩),
        [⟨"Ethereum", "ETH", 2, "1.00%"⟩, ⟨"Bitcoin", "BTC", 3, "2.00%"⟩,
         ⟨"Bitcoin2", "BTC", 4, "3.00%"⟩]) :=
  ((searchCrypto_case_insensitive id _).2 [⟨"Ethereum", "ETH", 2, "1.00%"⟩]
    ⟨"Bitcoin", "BTC", 3, "2.00%"⟩ [⟨"Bitcoin2", "BTC", 4, "3.00%"⟩] rfl rfl
    (by decide)).1

/-! ## C6 to C9: top gainer and top loser -/

theorem f64_lt_nan_left (b : F64) : F64.lt .nan b = false := by
  cases b <;> rfl

theorem f64_lt_nan_right (a : F64) : F64.lt a .nan = false := by
  cases a <;> rfl

theorem f64_lt_irrefl (a : F64) : F64.lt a a = false := by
  cases a <;> simp [F64.lt]

theorem f64_lt_trans (a b c : F64) (hab : F64.lt a b = true) (hbc : F64.lt b c = true) :
    F64.lt a c = true := by
  cases a <;> cases b <;> cases c <;> simp_all [F64.lt]
  exact lt_trans hab hbc

theorem f64_lt_asymm (a b : F64) (hab : F64.lt a b = true) : F64.lt b a = false := by
  cases a <;> cases b <;> simp_all [F64.lt]
  exact le_of_lt hab

theorem f64_lt_of_lt_of_not_lt (a b c : F64) (hab : F64.lt a b = true)
    (hcb : F64.lt c b = false) (hc : c ≠ .nan) (hb : b ≠ .nan) : F64.lt a c = true := by
  cases a <;> cases b <;> cases c <;> simp_all [F64.lt]
  exact lt_of_lt_of_le hab hcb

theorem f64_lt_of_not_lt_of_lt (a b c : F64) (hba : F64.lt b a = true)
    (hbc : F64.lt b c = false) (hc : c ≠ .nan) (hb : b ≠ .nan) : F64.lt c a = true := by
  cases a <;> cases b <;> cases c <;> simp_all [F64.lt]
  exact lt_of_le_of_lt hbc hba

theorem f64_eq_of_not_lt (a b : F64) (ha : a ≠ .nan) (hb : b ≠ .nan)
    (hab : F64.lt a b = false) (hba : F64.lt b a = false) : a = b := by
  cases a with
  | nan => exact absurd rfl ha
  | inf x =>
    cases b with
    | nan => exact absurd rfl hb
    | inf y => cases x <;> cases y <;> simp_all [F64.lt]
    | fin q => cases x <;> simp_all [F64.lt]
  | fin p =>
    cases b with
    | nan => exact absurd rfl hb
    | inf y => cases y <;> simp_all [F64.lt]
    | fin q =>
      simp only [F64.lt, decide_eq_false_iff_not, not_lt] at hab hba
      rw [le_antisymm hba hab]

theorem f64_le_iff (a b : F64) (ha : a ≠ .nan) (hb : b ≠ .nan) :
    F64.le a b = true ↔ F64.lt b a = false := by
  cases a <;> cases b <;> simp_all [F64.le]

theorem bestBy_cons (better : F64 → F64 → Bool) (x : Crypto) (xs : List Crypto)
    (init : Crypto × F64) :
    bestBy better (x :: xs) init =
      bestBy better xs (match parseChange x with
        | .error _ => init
        | .ok v => if better v init.2 then (x, v) else init) := rfl

theorem bestBy_cons_better (better : F64 → F64 → Bool) (x : Crypto) (xs : List Crypto)
    (init : Crypto × F64) (v : F64) (hx : parseChange x = .ok v)
    (hv : better v init.2 = true) :
    bestBy better (x :: xs) init = bestBy better xs (x, v) := by
  rw [bestBy_cons, hx]
  simp only [hv, if_true]

theorem bestBy_cons_keep (better : F64 → F64 → Bool) (x : Crypto) (xs : List Crypto)
    (init : Crypto × F64) (v : F64) (hx : parseChange x = .ok v)
    (hv : better v init.2 = false) :
    bestBy better (x :: xs) init = bestBy better xs init := by
  rw [bestBy_cons, hx]
  simp only [hv, Bool.false_eq_true, if_false]

/-- What the running pair is after the scan: either no record improved on the
start value, or the pair is a record `r` with its parsed change `c`, which is
better than the start value, strictly better than every number parsed before
`r` and not improved on by any record after `r`. -/
theorem bestBy_spec (better : F64 → F64 → Bool)
    (hnan : ∀ b, better .nan b = false)
    (htrans : ∀ a b c, better a b = true → better b c = true → better a c = true)
    (hcut : ∀ c c0 w, better c c0 = true → better w c0 = false → w ≠ .nan → c0 ≠ .nan →
      better c w = true)
    (l : List Crypto) (g0 : Crypto) (c0 : F64) (hc0 : c0 ≠ .nan) :
    ((∀ x ∈ l, ∀ w, parseChange x = .ok w → better w c0 = false) ∧
        bestBy better l (g0, c0) = (g0, c0)) ∨
    (∃ pre r post c, l = pre ++ r :: post ∧ parseChange r = .ok c ∧
        bestBy better l (g0, c0) = (r, c) ∧ better c c0 = true ∧
        (∀ x ∈ pre, ∀ w, parseChange x = .ok w → w ≠ .nan → better c w = true) ∧
        (∀ x ∈ post, ∀ w, parseChange x = .ok w → better w c = false)) := by
  induction l generalizing g0 c0 with
  | nil => left; exact ⟨by simp, rfl⟩
  | cons x xs ih =>
    rw [bestBy_cons]
    cases hx : parseChange x with
    | error e =>
      simp only []
      rcases ih g0 c0 hc0 with ⟨hall, hres⟩ | ⟨pre, r, post, c, hl, hr, hres, hb, hpre, hpost⟩
      · left
        refine ⟨?_, hres⟩
        intro y hy w hw
        rcases List.mem_cons.mp hy with h | h
        · rw [h, hx] at hw; cases hw
        · exact hall y h w hw
      · right
        refine ⟨x :: pre, r, post, c, by simp [hl], hr, hres, hb, ?_, hpost⟩
        intro y hy w hw hwn
        rcases List.mem_cons.mp hy with h | h
        · rw [h, hx] at hw; cases hw
        · exact hpre y h w hw hwn
    | ok v =>
      simp only []
      cases hv : better v c0 with
      | false =>
        simp only [Bool.false_eq_true, if_false]
        rcases ih g0 c0 hc0 with ⟨hall, hres⟩ | ⟨pre, r, post, c, hl, hr, hres, hb, hpre, hpost⟩
        · left
          refine ⟨?_, hres⟩
          intro y hy w hw
          rcases List.mem_cons.mp hy with h | h
          · rw [h, hx] at hw
            cases hw
            exact hv
          · exact hall y h w hw
        · right
          refine ⟨x :: pre, r, post, c, by simp [hl], hr, hres, hb, ?_, hpost⟩
          intro y hy w hw hwn
          rcases List.mem_cons.mp hy with h | h
          · rw [h, hx] at hw
            cases hw
            exact hcut c c0 v hb hv hwn hc0
          · exact hpre y h w hw hwn
      | true =>
        simp only [if_true]
        have hvn : v ≠ .nan := by
          intro h
          rw [h, hnan] at hv
          cases hv
        rcases ih x v hvn with ⟨hall, hres⟩ | ⟨pre, r, post, c, hl, hr, hres, hb, hpre, hpost⟩
        · right
          exact ⟨[], x, xs, v, rfl, hx, hres, hv, by simp, hall⟩
        · right
          refine ⟨x :: pre, r, post, c, by simp [hl], hr, hres, htrans c v c0 hb hv, ?_, hpost⟩
          intro y hy w hw hwn
          rcases List.mem_cons.mp hy with h | h
          · rw [h, hx] at hw
            cases hw
            exact hb
          · exact hpre y h w hw hwn

/-- The record kept by the scan, read against the numbers parsed from the
cache: when some parsed number `m` is better than the start value and no parsed
number is better than `m`, the record kept is the first one that parses to `m`;
when there is no such `m`, the record kept is the start record. -/
theorem bestBy_extreme (better : F64 → F64 → Bool)
    (hnan : ∀ b, better .nan b = false)
    (hirr : ∀ a, better a a = false)
    (hasym : ∀ a b, better a b = true → better b a = false)
    (htrans : ∀ a b c, better a b = true → better b c = true → better a c = true)
    (hcut : ∀ c c0 w, better c c0 = true → better w c0 = false → w ≠ .nan → c0 ≠ .nan →
      better c w = true)
    (hanti : ∀ a b, a ≠ .nan → b ≠ .nan → better a b = false → better b a = false → a = b)
    (l : List Crypto) (g0 : Crypto) (c0 : F64) (hc0 : c0 ≠ .nan) :
    (∀ m, m ≠ .nan → (∃ r ∈ l, parseChange r = .ok m) →
        (∀ r ∈ l, ∀ v, parseChange r = .ok v → v ≠ .nan → better v m = false) →
        better m c0 = true → IsFirstWithChange l m (bestBy better l (g0, c0)).1) ∧
    ((¬ ∃ m, m ≠ .nan ∧ (∃ r ∈ l, parseChange r = .ok m) ∧
        (∀ r ∈ l, ∀ v, parseChange r = .ok v → v ≠ .nan → better v m = false) ∧
        better m c0 = true) → (bestBy better l (g0, c0)).1 = g0) := by
  rcases bestBy_spec better hnan htrans hcut l g0 c0 hc0 with
    ⟨hall, hres⟩ | ⟨pre, r, post, c, hl, hr, hres, hb, hpre, hpost⟩
  · constructor
    · intro m _ hex _ hm
      obtain ⟨r, hr, hrm⟩ := hex
      rw [hall r hr m hrm] at hm
      cases hm
    · intro _
      rw [hres]
  · have hcn : c ≠ .nan := by
      intro h
      rw [h, hnan] at hb
      cases hb
    have hfirst : ∀ x ∈ pre, parseChange x ≠ .ok c := by
      intro x hx hxc
      have := hpre x hx c hxc hcn
      rw [hirr] at this
      cases this
    constructor
    · intro m hmn hex hmax hm
      have hcm : better c m = false :=
        hmax r (by rw [hl]; simp) c hr hcn
      obtain ⟨r', hr', hrm⟩ := hex
      have hmc : m = c := by
        rw [hl] at hr'
        rcases List.mem_append.mp hr' with h | h
        · have := hpre r' h m hrm hmn
          rw [hcm] at this
          cases this
        · rcases List.mem_cons.mp h with h | h
          · rw [h, hr] at hrm
            cases hrm
            rfl
          · exact hanti m c hmn hcn (hpost r' h m hrm) hcm
      rw [hres, hmc]
      exact ⟨pre, post, hl, hr, hfirst⟩
    · intro hno
      exfalso
      apply hno
      refine ⟨c, hcn, ⟨r, by rw [hl]; simp, hr⟩, ?_, hb⟩
      intro r' hr' v hv hvn
      rw [hl] at hr'
      rcases List.mem_append.mp hr' with h | h
      · exact hasym c v (hpre r' h v hv hvn)
      · rcases List.mem_cons.mp h with h | h
        · rw [h, hr] at hv
          cases hv
          exact hirr _
        · exact hpost r' h v hv

theorem step_gainer (st : Scan) (x : Crypto) :
    ((getTopGainerLoser.step st x).topGainer, (getTopGainerLoser.step st x).topGainerChange) =
      (match parseChange x with
        | .error _ => (st.topGainer, st.topGainerChange)
        | .ok v => if F64.gt v st.topGainerChange then (x, v)
            else (st.topGainer, st.topGainerChange)) := by
  unfold getTopGainerLoser.step
  cases parseChange x with
  | error e => rfl
  | ok v =>
    simp only []
    by_cases h1 : F64.gt v st.topGainerChange = true <;>
      by_cases h2 : F64.lt v st.topLoserChange = true <;> simp [h1, h2]

theorem step_loser (st : Scan) (x : Crypto) :
    ((getTopGainerLoser.step st x).topLoser, (getTopGainerLoser.step st x).topLoserChange) =
      (match parseChange x with
        | .error _ => (st.topLoser, st.topLoserChange)
        | .ok v => if F64.lt v st.topLoserChange then (x, v)
            else (st.topLoser, st.topLoserChange)) := by
  unfold getTopGainerLoser.step
  cases parseChange x with
  | error e => rfl
  | ok v =>
    simp only []
    by_cases h1 : F64.gt v st.topGainerChange = true <;>
      by_cases h2 : F64.lt v st.topLoserChange = true <;> simp [h1, h2]

/-- The gainer pair of the scan is the running pair for `>`. -/
theorem foldl_step_gainer (l : List Crypto) (st : Scan) :
    ((l.foldl getTopGainerLoser.step st).topGainer,
        (l.foldl getTopGainerLoser.step st).topGainerChange) =
      bestBy F64.gt l (st.topGainer, st.topGainerChange) := by
  induction l generalizing st with
  | nil => rfl
  | cons x xs ih =>
    rw [List.foldl_cons, ih, step_gainer, bestBy_cons]

/-- The loser pair of the scan is the running pair for `<`. -/
theorem foldl_step_loser (l : List Crypto) (st : Scan) :
    ((l.foldl getTopGainerLoser.step st).topLoser,
        (l.foldl getTopGainerLoser.step st).topLoserChange) =
      bestBy F64.lt l (st.topLoser, st.topLoserChange) := by
  induction l generalizing st with
  | nil => rfl
  | cons x xs ih =>
    rw [List.foldl_cons, ih, step_loser, bestBy_cons]

/-- The response of `getTopGainerLoser` on a non-empty cache, in terms of the
two running pairs. -/
theorem getTopGainerLoser_eq (cryptos : List Crypto) (h : cryptos ≠ []) :
    getTopGainerLoser cryptos =
      (JSON StatusOK (.gainerLoser (bestBy F64.gt cryptos (Crypto.zero, .fin (-100))).1
        (bestBy F64.lt cryptos (Crypto.zero, .fin 100)).1), cryptos) := by
  have hlen : cryptos.length ≠ 0 := by
    intro h0
    exact h (List.length_eq_zero.mp h0)
  unfold getTopGainerLoser
  rw [if_neg hlen]
  simp only []
  rw [← foldl_step_gainer cryptos ⟨Crypto.zero, Crypto.zero, .fin (-100), .fin 100⟩,
    ← foldl_step_loser cryptos ⟨Crypto.zero, Crypto.zero, .fin (-100), .fin 100⟩]

theorem bestBy_gt_extreme (l : List Crypto) (g0 : Crypto) (c0 : F64) (hc0 : c0 ≠ .nan) :
    (∀ m, IsMaxNumber l m → F64.gt m c0 = true →
        IsFirstWithChange l m (bestBy F64.gt l (g0, c0)).1) ∧
    ((¬ ∃ m, IsMaxNumber l m ∧ F64.gt m c0 = true) → (bestBy F64.gt l (g0, c0)).1 = g0) := by
  have key := bestBy_extreme F64.gt (fun b => f64_lt_nan_right b) f64_lt_irrefl
    (fun a b h => f64_lt_asymm b a h)
    (fun a b c hab hbc => f64_lt_trans c b a hbc hab)
    (fun c c0 w h1 h2 hw h0 => f64_lt_of_not_lt_of_lt c c0 w h1 h2 hw h0)
    (fun a b ha hb h1 h2 => f64_eq_of_not_lt a b ha hb h2 h1) l g0 c0 hc0
  constructor
  · intro m hm hgt
    obtain ⟨hmn, hex, hmax⟩ := hm
    refine key.1 m hmn hex ?_ hgt
    intro r hr v hv hvn
    exact (f64_le_iff v m hvn hmn).mp (hmax r hr v hv hvn)
  · intro hno
    apply key.2
    rintro ⟨m, hmn, hex, hmax, hgt⟩
    apply hno
    refine ⟨m, ⟨hmn, hex, ?_⟩, hgt⟩
    intro r hr v hv hvn
    exact (f64_le_iff v m hvn hmn).mpr (hmax r hr v hv hvn)

theorem bestBy_lt_extreme (l : List Crypto) (g0 : Crypto) (c0 : F64) (hc0 : c0 ≠ .nan) :
    (∀ m, IsMinNumber l m → F64.lt m c0 = true →
        IsFirstWithChange l m (bestBy F64.lt l (g0, c0)).1) ∧
    ((¬ ∃ m, IsMinNumber l m ∧ F64.lt m c0 = true) → (bestBy F64.lt l (g0, c0)).1 = g0) := by
  have key := bestBy_extreme F64.lt f64_lt_nan_left f64_lt_irrefl f64_lt_asymm f64_lt_trans
    (fun c c0 w h1 h2 hw h0 => f64_lt_of_lt_of_not_lt c c0 w h1 h2 hw h0)
    (fun a b ha hb h1 h2 => f64_eq_of_not_lt a b ha hb h1 h2) l g0 c0 hc0
  constructor
  · intro m hm hlt
    obtain ⟨hmn, hex, hmin⟩ := hm
    refine key.1 m hmn hex ?_ hlt
    intro r hr v hv hvn
    exact (f64_le_iff m v hmn hvn).mp (hmin r hr v hv hvn)
  · intro hno
    apply key.2
    rintro ⟨m, hmn, hex, hmin, hlt⟩
    apply hno
    refine ⟨m, ⟨hmn, hex, ?_⟩, hlt⟩
    intro r hr v hv hvn
    exact (f64_le_iff m v hmn hvn).mpr (hmin r hr v hv hvn)

theorem parseChange_five (n s : String) (p : ℚ) :
    parseChange ⟨n, s, p, "5.00%"⟩ = .ok (.fin 5) := by
  have h : ParseFloat (Trim "5.00%" " %") = .ok (.fin 5) := by rfl
  exact h

theorem parseChange_minus_three (n s : String) (p : ℚ) :
    parseChange ⟨n, s, p, "-3.00%"⟩ = .ok (.fin (-3)) := by
  have h : ParseFloat (Trim "-3.00%" " %") = .ok (.fin (-3)) := by rfl
  exact h

theorem parseChange_one (n s : String) (p : ℚ) :
    parseChange ⟨n, s, p, "1.00%"⟩ = .ok (.fin 1) := by
  have h : ParseFloat (Trim "1.00%" " %") = .ok (.fin 1) := by rfl
  exact h

/-- C6, amended: on every non-empty cache `getTopGainerLoser` answers 200 with a
pair `top_gainer`, `top_loser`.  `top_gainer` is the first record in cache order
whose parsed change is the maximum over all records that parse to a number
(a value other than NaN), provided that maximum is strictly greater than -100,
and the zero-value record otherwise; `top_loser` is the first record whose
parsed change is the minimum over all records that parse to a number, provided
that minimum is strictly less than 100, and the zero-value record otherwise.
For a cache of three records with changes "5.00%", "-3.00%", "1.00%" the
gainer is the first record and the loser the second. -/
theorem getTopGainerLoser_first_extreme (cryptos : List Crypto) (h : cryptos ≠ []) :
    (∃ g l, getTopGainerLoser cryptos = (JSON StatusOK (.gainerLoser g l), cryptos) ∧
      (∀ m, IsMaxNumber cryptos m → F64.gt m (.fin (-100)) = true →
        IsFirstWithChange cryptos m g) ∧
      ((¬ ∃ m, IsMaxNumber cryptos m ∧ F64.gt m (.fin (-100)) = true) → g = Crypto.zero) ∧
      (∀ m, IsMinNumber cryptos m → F64.lt m (.fin 100) = true →
        IsFirstWithChange cryptos m l) ∧
      ((¬ ∃ m, IsMinNumber cryptos m ∧ F64.lt m (.fin 100) = true) → l = Crypto.zero)) ∧
    (∀ (n1 s1 n2 s2 n3 s3 : String) (p1 p2 p3 : ℚ),
      (getTopGainerLoser [⟨n1, s1, p1, "5.00%"⟩, ⟨n2, s2, p2, "-3.00%"⟩,
          ⟨n3, s3, p3, "1.00%"⟩]).1 =
        JSON StatusOK (.gainerLoser ⟨n1, s1, p1, "5.00%"⟩ ⟨n2, s2, p2, "-3.00%"⟩)) := by
  constructor
  · have hg := bestBy_gt_extreme cryptos Crypto.zero (.fin (-100)) (by simp)
    have hl := bestBy_lt_extreme cryptos Crypto.zero (.fin 100) (by simp)
    exact ⟨_, _, getTopGainerLoser_eq cryptos h, hg.1, hg.2, hl.1, hl.2⟩
  · intro n1 s1 n2 s2 n3 s3 p1 p2 p3
    have g1 : F64.gt (.fin 5) (.fin (-100)) = true := by norm_num [F64.gt, F64.lt]
    have g2 : F64.gt (.fin (-3)) (.fin 5) = false := by norm_num [F64.gt, F64.lt]
    have g3 : F64.gt (.fin 1) (.fin 5) = false := by norm_num [F64.gt, F64.lt]
    have l1 : F64.lt (.fin 5) (.fin 100) = true := by norm_num [F64.lt]
    have l2 : F64.lt (.fin (-3)) (.fin 5) = true := by norm_num [F64.lt]
    have l3 : F64.lt (.fin 1) (.fin (-3)) = false := by norm_num [F64.lt]
    rw [getTopGainerLoser_eq _ (List.cons_ne_nil _ _),
      bestBy_cons_better _ _ _ _ _ (parseChange_five n1 s1 p1) g1,
      bestBy_cons_keep _ _ _ _ _ (parseChange_minus_three n2 s2 p2) g2,
      bestBy_cons_keep _ _ _ _ _ (parseChange_one n3 s3 p3) g3,
      bestBy_cons_better _ _ _ _ _ (parseChange_five n1 s1 p1) l1,
      bestBy_cons_better _ _ _ _ _ (parseChange_minus_three n2 s2 p2) l2,
      bestBy_cons_keep _ _ _ _ _ (parseChange_one n3 s3 p3) l3]
    rfl

/-- C6, amended, on the cache with changes "NaN", "5.00%", "8.00%", "8.00%":
8 is the maximum and 5 the minimum over the records that parse to a number,
the gainer is the first of the two records with change 8 and the loser the
record with change 5. -/
theorem getTopGainerLoser_first_extreme_witness :
    ([⟨"Bitcoin", "BITCOIN", 1, "NaN"⟩, ⟨"Ethereum", "ETHEREUM", 2, "5.00%"⟩,
        ⟨"Ripple", "RIPPLE", 3, "8.00%"⟩, ⟨"Solana", "SOLANA", 4, "8.00%"⟩] : List Crypto) ≠ [] ∧
    IsMaxNumber [⟨"Bitcoin", "BITCOIN", 1, "NaN"⟩, ⟨"Ethereum", "ETHEREUM", 2, "5.00%"⟩,
        ⟨"Ripple", "RIPPLE", 3, "8.00%"⟩, ⟨"Solana", "SOLANA", 4, "8.00%"⟩] (.fin 8) ∧
    IsMinNumber [⟨"Bitcoin", "BITCOIN", 1, "NaN"⟩, ⟨"Ethereum", "ETHEREUM", 2, "5.00%"⟩,
        ⟨"Ripple", "RIPPLE", 3, "8.00%"⟩, ⟨"Solana", "SOLANA", 4, "8.00%"⟩] (.fin 5) ∧
    ∃ g l, getTopGainerLoser [⟨"Bitcoin", "BITCOIN", 1, "NaN"⟩,
          ⟨"Ethereum", "ETHEREUM", 2, "5.00%"⟩, ⟨"Ripple", "RIPPLE", 3, "8.00%"⟩,
          ⟨"Solana", "SOLANA", 4, "8.00%"⟩] =
        (JSON StatusOK (.gainerLoser g l), [⟨"Bitcoin", "BITCOIN", 1, "NaN"⟩,
          ⟨"Ethereum", "ETHEREUM", 2, "5.00%"⟩, ⟨"Ripple", "RIPPLE", 3, "8.00%"⟩,
          ⟨"Solana", "SOLANA", 4, "8.00%"⟩]) ∧
      IsFirstWithChange [⟨"Bitcoin", "BITCOIN", 1, "NaN"⟩,
          ⟨"Ethereum", "ETHEREUM", 2, "5.00%"⟩, ⟨"Ripple", "RIPPLE", 3, "8.00%"⟩,
          ⟨"Solana", "SOLANA", 4, "8.00%"⟩] (.fin 8) g ∧
      IsFirstWithChange [⟨"Bitcoin", "BITCOIN", 1, "NaN"⟩,
          ⟨"Ethereum", "ETHEREUM", 2, "5.00%"⟩, ⟨"Ripple", "RIPPLE", 3, "8.00%"⟩,
          ⟨"Solana", "SOLANA", 4, "8.00%"⟩] (.fin 5) l ∧
      g = ⟨"Ripple", "RIPPLE", 3, "8.00%"⟩ ∧ l = ⟨"Ethereum", "ETHEREUM", 2, "5.00%"⟩ := by
  have p1 : parseChange ⟨"Bitcoin", "BITCOIN", 1, "NaN"⟩ = .ok .nan := by rfl
  have p2 : parseChange ⟨"Ethereum", "ETHEREUM", 2, "5.00%"⟩ = .ok (.fin 5) := by rfl
  have p3 : parseChange ⟨"Ripple", "RIPPLE", 3, "8.00%"⟩ = .ok (.fin 8) := by rfl
  have p4 : parseChange ⟨"Solana", "SOLANA", 4, "8.00%"⟩ = .ok (.fin 8) := by rfl
  have hmax : IsMaxNumber [⟨"Bitcoin", "BITCOIN", 1, "NaN"⟩,
      ⟨"Ethereum", "ETHEREUM", 2, "5.00%"⟩, ⟨"Ripple", "RIPPLE", 3, "8.00%"⟩,
      ⟨"Solana", "SOLANA", 4, "8.00%"⟩] (.fin 8) := by
    refine ⟨by simp, ⟨_, by simp, p3⟩, ?_⟩
    intro r hr v hv hvn
    simp only [List.mem_cons, List.mem_singleton, List.not_mem_nil, or_false] at hr
    rcases hr with h | h | h | h <;> rw [h] at hv
    · rw [p1] at hv; cases hv; exact absurd rfl hvn
    · rw [p2] at hv; cases hv; decide
    · rw [p3] at hv; cases hv; decide
    · rw [p4] at hv; cases hv; decide
  have hmin : IsMinNumber [⟨"Bitcoin", "BITCOIN", 1, "NaN"⟩,
      ⟨"Ethereum", "ETHEREUM", 2, "5.00%"⟩, ⟨"Ripple", "RIPPLE", 3, "8.00%"⟩,
      ⟨"Solana", "SOLANA", 4, "8.00%"⟩] (.fin 5) := by
    refine ⟨by simp, ⟨_, by simp, p2⟩, ?_⟩
    intro r hr v hv hvn
    simp only [List.mem_cons, List.mem_singleton, List.not_mem_nil, or_false] at hr
    rcases hr with h | h | h | h <;> rw [h] at hv
    · rw [p1] at hv; cases hv; exact absurd rfl hvn
    · rw [p2] at hv; cases hv; decide
    · rw [p3] at hv; cases hv; decide
    · rw [p4] at hv; cases hv; decide
  obtain ⟨g, l, heq, hg, _, hl, _⟩ :=
    (getTopGainerLoser_first_extreme [⟨"Bitcoin", "BITCOIN", 1, "NaN"⟩,
      ⟨"Ethereum", "ETHEREUM", 2, "5.00%"⟩, ⟨"Ripple", "RIPPLE", 3, "8.00%"⟩,
      ⟨"Solana", "SOLANA", 4, "8.00%"⟩] (List.cons_ne_nil _ _)).1
  refine ⟨List.cons_ne_nil _ _, hmax, hmin, g, l, heq, hg _ hmax (by decide),
    hl _ hmin (by decide), ?_⟩
  have hval : getTopGainerLoser [⟨"Bitcoin", "BITCOIN", 1, "NaN"⟩,
          ⟨"Ethereum", "ETHEREUM", 2, "5.00%"⟩, ⟨"Ripple", "RIPPLE", 3, "8.00%"⟩,
          ⟨"Solana", "SOLANA", 4, "8.00%"⟩] =
        (JSON StatusOK (.gainerLoser ⟨"Ripple", "RIPPLE", 3, "8.00%"⟩
          ⟨"Ethereum", "ETHEREUM", 2, "5.00%"⟩), [⟨"Bitcoin", "BITCOIN", 1, "NaN"⟩,
          ⟨"Ethereum", "ETHEREUM", 2, "5.00%"⟩, ⟨"Ripple", "RIPPLE", 3, "8.00%"⟩,
          ⟨"Solana", "SOLANA", 4, "8.00%"⟩]) := by decide
  rw [hval] at heq
  simp only [JSON, Prod.mk.injEq, Response.mk.injEq, Body.gainerLoser.injEq] at heq
  exact ⟨heq.1.2.2.1.symm, heq.1.2.2.2.symm⟩

/-- C6 as it is stated fails on the cache with changes "NaN", "5.00%": the first
record parses (to NaN), so no parsed change is the maximum or the minimum over
all records that parse and the statement asks for zero-value records, while
`getTopGainerLoser` returns the second record twice. -/
theorem getTopGainerLoser_as_stated_fails :
    ¬ ∃ g l, getTopGainerLoser [⟨"Bitcoin", "BITCOIN", 1, "NaN"⟩,
          ⟨"Ethereum", "ETHEREUM", 2, "5.00%"⟩] =
        (JSON StatusOK (.gainerLoser g l), [⟨"Bitcoin", "BITCOIN", 1, "NaN"⟩,
          ⟨"Ethereum", "ETHEREUM", 2, "5.00%"⟩]) ∧
      TopGainerAsStated [⟨"Bitcoin", "BITCOIN", 1, "NaN"⟩,
          ⟨"Ethereum", "ETHEREUM", 2, "5.00%"⟩] g ∧
      TopLoserAsStated [⟨"Bitcoin", "BITCOIN", 1, "NaN"⟩,
          ⟨"Ethereum", "ETHEREUM", 2, "5.00%"⟩] l := by
  rintro ⟨g, l, heq, hg, _⟩
  have hval : getTopGainerLoser [⟨"Bitcoin", "BITCOIN", 1, "NaN"⟩,
          ⟨"Ethereum", "ETHEREUM", 2, "5.00%"⟩] =
        (JSON StatusOK (.gainerLoser ⟨"Ethereum", "ETHEREUM", 2, "5.00%"⟩
          ⟨"Ethereum", "ETHEREUM", 2, "5.00%"⟩), [⟨"Bitcoin", "BITCOIN", 1, "NaN"⟩,
          ⟨"Ethereum", "ETHEREUM", 2, "5.00%"⟩]) := by decide
  rw [hval] at heq
  simp only [JSON, Prod.mk.injEq, Response.mk.injEq, Body.gainerLoser.injEq] at heq
  have hgz : g = Crypto.zero := by
    apply hg.2
    rintro ⟨m, ⟨_, hmax⟩, _⟩
    have hnan : parseChange ⟨"Bitcoin", "BITCOIN", 1, "NaN"⟩ = .ok .nan := rfl
    have := hmax _ (List.mem_cons_self _ _) .nan hnan
    cases m <;> simp [F64.le] at this
  rw [hgz] at heq
  exact absurd heq.1.2.2.1 (by decide)

/-- C7 at a cache whose only record has the change "150.00%": the change
parses to 150, which is the lowest (and highest) parsed change, and
`getTopGainerLoser` returns that record as `top_gainer` but the zero-value
record, which is not in the cache, as `top_loser`; likewise a cache whose only
record has the change "-100.00%" gets the zero-value record as `top_gainer`. -/
theorem getTopGainerLoser_sentinel_hides_record :
    getTopGainerLoser [⟨"Bitcoin", "BITCOIN", 50000, "150.00%"⟩] =
      (JSON StatusOK (.gainerLoser ⟨"Bitcoin", "BITCOIN", 50000, "150.00%"⟩ Crypto.zero),
        [⟨"Bitcoin", "BITCOIN", 50000, "150.00%"⟩]) ∧
    IsMinNumber [⟨"Bitcoin", "BITCOIN", 50000, "150.00%"⟩] (.fin 150) ∧
    Crypto.zero ∉ [(⟨"Bitcoin", "BITCOIN", 50000, "150.00%"⟩ : Crypto)] ∧
    getTopGainerLoser [⟨"Bitcoin", "BITCOIN", 0, "-100.00%"⟩] =
      (JSON StatusOK (.gainerLoser Crypto.zero ⟨"Bitcoin", "BITCOIN", 0, "-100.00%"⟩),
        [⟨"Bitcoin", "BITCOIN", 0, "-100.00%"⟩]) := by
  have hp : parseChange ⟨"Bitcoin", "BITCOIN", 50000, "150.00%"⟩ = .ok (.fin 150) := by rfl
  refine ⟨by decide, ⟨by simp, ⟨_, List.mem_cons_self _ _, hp⟩, ?_⟩, by decide, by decide⟩
  intro r hr v hv _
  rw [List.mem_singleton.mp hr, hp] at hv
  cases hv
  simp [F64.le, F64.lt]

/-! ### C8 and C9 -/

theorem getTopGainerLoser_nil :
    getTopGainerLoser [] = (JSON StatusBadRequest (.message "No crypto data available"), []) :=
  rfl

/-- C8: `getTopGainerLoser` answers 400 with the message "No crypto data
available" if and only if the cache is empty; on every non-empty cache,
whatever its change strings are, it answers 200 with a `top_gainer` /
`top_loser` pair. The cache is left as it was. -/
theorem getTopGainerLoser_noData_iff_empty (cryptos : List Crypto) :
    ((getTopGainerLoser cryptos).1 =
        JSON StatusBadRequest (.message "No crypto data available") ↔ cryptos = []) ∧
    ((getTopGainerLoser cryptos).1.status = 400 ↔ cryptos = []) ∧
    (cryptos ≠ [] → ∃ g l,
      getTopGainerLoser cryptos = (JSON StatusOK (.gainerLoser g l), cryptos) ∧
      (getTopGainerLoser cryptos).1.status = 200) ∧
    (getTopGainerLoser cryptos).2 = cryptos := by
  by_cases h : cryptos = []
  · subst h
    refine ⟨⟨fun _ => rfl, fun _ => rfl⟩, ⟨fun _ => rfl, fun _ => rfl⟩, ?_, rfl⟩
    intro hne
    exact absurd rfl hne
  · have heq := getTopGainerLoser_eq cryptos h
    refine ⟨⟨?_, fun h' => absurd h' h⟩, ⟨?_, fun h' => absurd h' h⟩, ?_, ?_⟩
    · intro h'
      rw [heq] at h'
      simp [JSON, StatusOK, StatusBadRequest] at h'
    · intro h'
      rw [heq] at h'
      simp [JSON, StatusOK] at h'
    · intro _
      exact ⟨_, _, heq, by rw [heq]; rfl⟩
    · rw [heq]

/-- C8 on a cache whose only record has a change that is no number. -/
theorem getTopGainerLoser_noData_iff_empty_witness :
    ∃ g l, getTopGainerLoser [⟨"Bitcoin", "BITCOIN", 50000, "n/a"⟩] =
        (JSON StatusOK (.gainerLoser g l), [⟨"Bitcoin", "BITCOIN", 50000, "n/a"⟩]) ∧
      (getTopGainerLoser [⟨"Bitcoin", "BITCOIN", 50000, "n/a"⟩]).1.status = 200 :=
  (getTopGainerLoser_noData_iff_empty [⟨"Bitcoin", "BITCOIN", 50000, "n/a"⟩]).2.2.1
    (List.cons_ne_nil _ _)

theorem foldl_step_skip (l : List Crypto) (st : Scan)
    (hall : ∀ r ∈ l, ∃ e, parseChange r = .error e) :
    l.foldl getTopGainerLoser.step st = st := by
  induction l generalizing st with
  | nil => rfl
  | cons x xs ih =>
    obtain ⟨e, he⟩ := hall x (List.mem_cons_self _ _)
    have hstep : getTopGainerLoser.step st x = st := by
      unfold getTopGainerLoser.step
      rw [he]
    rw [List.foldl_cons, hstep]
    exact ih st (fun r hr => hall r (List.mem_cons_of_mem _ hr))

/-- C9: on a non-empty cache in which the change of every record fails to parse
(after stripping spaces and '%'), the loop body leaves the locals of the scan
as they were for every record, and `getTopGainerLoser` answers 200 with both
`top_gainer` and `top_loser` the zero-value record: empty name, empty symbol,
price 0, empty change. -/
theorem getTopGainerLoser_all_unparsable (cryptos : List Crypto) (h : cryptos ≠ [])
    (hall : ∀ r ∈ cryptos, ∃ e, parseChange r = .error e) :
    (∀ r ∈ cryptos, ∀ st, getTopGainerLoser.step st r = st) ∧
    getTopGainerLoser cryptos =
      (JSON StatusOK (.gainerLoser Crypto.zero Crypto.zero), cryptos) ∧
    (JSON StatusOK (.gainerLoser Crypto.zero Crypto.zero)).status = 200 ∧
    Crypto.zero = ⟨"", "", 0, ""⟩ := by
  refine ⟨?_, ?_, rfl, rfl⟩
  · intro r hr st
    obtain ⟨e, he⟩ := hall r hr
    unfold getTopGainerLoser.step
    rw [he]
  · have hlen : cryptos.length ≠ 0 := fun h0 => h (List.length_eq_zero.mp h0)
    unfold getTopGainerLoser
    rw [if_neg hlen]
    simp only []
    rw [foldl_step_skip cryptos _ hall]

/-- C9 on a cache of three records with the changes "n/a", "" and "5,00%". -/
theorem getTopGainerLoser_all_unparsable_witness :
    getTopGainerLoser [⟨"Bitcoin", "BITCOIN", 50000, "n/a"⟩, ⟨"Ripple", "RIPPLE", 1, ""⟩,
        ⟨"Solana", "SOLANA", 20, "5,00%"⟩] =
      (JSON StatusOK (.gainerLoser Crypto.zero Crypto.zero),
        [⟨"Bitcoin", "BITCOIN", 50000, "n/a"⟩, ⟨"Ripple", "RIPPLE", 1, ""⟩,
        ⟨"Solana", "SOLANA", 20, "5,00%"⟩]) :=
  (getTopGainerLoser_all_unparsable [⟨"Bitcoin", "BITCOIN", 50000, "n/a"⟩,
      ⟨"Ripple", "RIPPLE", 1, ""⟩, ⟨"Solana", "SOLANA", 20, "5,00%"⟩] (List.cons_ne_nil _ _)
    (by
      intro r hr
      simp only [List.mem_cons, List.mem_singleton, List.not_mem_nil, or_false] at hr
      rcases hr with h | h | h <;> rw [h]
      · exact ⟨.ErrSyntax, by rfl⟩
      · exact ⟨.ErrSyntax, by rfl⟩
      · exact ⟨.ErrSyntax, by rfl⟩)).2.1

/-! ## C10: the CSV rows -/

theorem foldl_append_row {α β : Type} (f : α → β) (l : List α) (init : List β) :
    l.foldl (fun writer x => writer ++ [f x]) init = init ++ l.map f := by
  induction l generalizing init with
  | nil => simp
  | cons x xs ih => simp [List.foldl_cons, ih]

theorem saveToCSV_created_eq (cryptos : List Crypto) :
    saveToCSV false cryptos = some (csvRowsSpec cryptos) := by
  simp only [saveToCSV, csvRowsSpec, foldl_append_row, List.singleton_append]
  rfl

/-- C10: for every cache the rows `downloadCSV` hands to the writer of the
response are the rows `saveToCSV` hands to the writer of the snapshot file
(once the file is created): the header row followed by one row per cached
record, in cache order, each being name, symbol, price with two decimals,
change as stored; that is `len(cache) + 1` rows. `downloadCSV` leaves the cache
as it was. -/
theorem downloadCSV_rows_eq_saveToCSV_rows (cryptos : List Crypto) :
    downloadCSV cryptos =
      (⟨StatusOK, [("Content-Type", "text/csv"),
          ("Content-Disposition", "attachment; filename=crypto_data.csv")],
        .csv (csvRowsSpec cryptos)⟩, cryptos) ∧
    saveToCSV false cryptos = some (csvRowsSpec cryptos) ∧
    (csvRowsSpec cryptos).length = cryptos.length + 1 ∧
    (csvRowsSpec cryptos).head? = some ["Name", "Symbol", "Price (USD)", "24h Change"] ∧
    (∀ i (hi : i < cryptos.length), (csvRowsSpec cryptos)[i + 1]? =
      some [(cryptos.get ⟨i, hi⟩).Name, (cryptos.get ⟨i, hi⟩).Symbol,
        Sprintf2f (cryptos.get ⟨i, hi⟩).Price, (cryptos.get ⟨i, hi⟩).Change]) := by
  refine ⟨?_, ?_, ?_, rfl, ?_⟩
  · simp only [downloadCSV, csvRowsSpec, foldl_append_row, List.singleton_append]
  · simp only [saveToCSV, csvRowsSpec, foldl_append_row, List.singleton_append]
    rfl
  · simp [csvRowsSpec]
  · intro i hi
    simp [csvRowsSpec, List.getElem?_cons_succ, List.getElem?_map, List.getElem?_eq_getElem hi]

/-- C10 on a cache of two records: three rows, the prices 65432.125 and 0.5
written as "65432.12" and "0.50". -/
theorem downloadCSV_rows_eq_saveToCSV_rows_witness :
    saveToCSV false [⟨"Bitcoin", "BITCOIN", mkRat 65432125 1000, "-3.42%"⟩,
        ⟨"Dogecoin", "DOGECOIN", mkRat 1 2, "0.10%"⟩] =
      some [["Name", "Symbol", "Price (USD)", "24h Change"],
        ["Bitcoin", "BITCOIN", "65432.12", "-3.42%"],
        ["Dogecoin", "DOGECOIN", "0.50", "0.10%"]] :=
  (downloadCSV_rows_eq_saveToCSV_rows [⟨"Bitcoin", "BITCOIN", mkRat 65432125 1000, "-3.42%"⟩,
        ⟨"Dogecoin", "DOGECOIN", mkRat 1 2, "0.10%"⟩]).2.1

/-- C4 on a cache with two records of symbol "ETH" and the query "doge". -/
theorem searchCrypto_first_match_or_notFound_witness :
    ((searchCrypto id (some "doge")
        [⟨"Ethereum", "ETH", 2, "1.00%"⟩, ⟨"Ether", "ETH", 3, "2.00%"⟩]).1 =
        JSON StatusNotFound (.message "Crypto not found") ↔
      ∀ x ∈ [(⟨"Ethereum", "ETH", 2, "1.00%"⟩ : Crypto), ⟨"Ether", "ETH", 3, "2.00%"⟩],
        x.Symbol ≠ ToUpper id (Query (some "doge"))) :=
  (searchCrypto_first_match_or_notFound id (some "doge")
    [⟨"Ethereum", "ETH", 2, "1.00%"⟩, ⟨"Ether", "ETH", 3, "2.00%"⟩]).2.1

/-! ## C11, C13, C16: refresh -/

/-- The loop of `fetchCryptoData` builds the records of the specification, one
per entry of the decoded mapping, in the order of the iteration. -/
theorem fetch_loop_eq (caseTable : Char → Char) (tables : TitleTables)
    (entries : List (String × GoMap ℚ)) :
    entries.foldl (fun cryptos entry =>
      cryptos ++ [({ Name := Title tables entry.1
                     Symbol := ToUpper caseTable entry.1
                     Price := entry.2.index "usd"
                     Change := Sprintf2fPercent (entry.2.index "usd_24h_change") } : Crypto)])
        [] =
      entries.map (fun e => recordSpec caseTable tables e.1 e.2) := by
  rw [foldl_append_row (fun entry : String × GoMap ℚ =>
      ({ Name := Title tables entry.1
         Symbol := ToUpper caseTable entry.1
         Price := entry.2.index "usd"
         Change := Sprintf2fPercent (entry.2.index "usd_24h_change") } : Crypto)) entries []]
  rfl

/-- The successful branch of `fetchCryptoData` in closed form. -/
theorem fetchCryptoData_decoded_eq (caseTable : Char → Char) (tables : TitleTables)
    (result : GoMap (GoMap ℚ)) (createErr : Bool) (st : State) :
    fetchCryptoData caseTable tables (.decoded result) createErr st =
      (JSON StatusOK (.message "Crypto data fetched successfully!"),
        ⟨result.entries.map (fun e => recordSpec caseTable tables e.1 e.2),
          match saveToCSV createErr
              (result.entries.map (fun e => recordSpec caseTable tables e.1 e.2)) with
          | none => st.file
          | some rows => some rows⟩) := by
  simp only [fetchCryptoData, fetch_loop_eq]

/-- C11: for every prior state and every decoded upstream mapping, the cache
after `fetchCryptoData` holds one record per entry of the mapping, in the order
of the iteration, and nothing else; the identifiers of the mapping are pairwise
different; the record for the identifier `id` has the name `Title id`, the
symbol `ToUpper id`, the price `data["usd"]` and the change
`Sprintf("%.2f%%", data["usd_24h_change"])`. Nothing of the prior cache enters
the result. -/
theorem fetchCryptoData_replaces_cache (caseTable : Char → Char) (tables : TitleTables)
    (result : GoMap (GoMap ℚ)) (createErr : Bool) (st : State) :
    (fetchCryptoData caseTable tables (.decoded result) createErr st).2.cryptos =
      result.entries.map (fun e => recordSpec caseTable tables e.1 e.2) ∧
    (fetchCryptoData caseTable tables (.decoded result) createErr st).2.cryptos.length =
      result.entries.length ∧
    (result.entries.map Prod.fst).Nodup ∧
    (∀ id data, (id, data) ∈ result.entries →
      recordSpec caseTable tables id data ∈
        (fetchCryptoData caseTable tables (.decoded result) createErr st).2.cryptos) ∧
    (∀ r ∈ (fetchCryptoData caseTable tables (.decoded result) createErr st).2.cryptos,
      ∃ id data, (id, data) ∈ result.entries ∧ r = recordSpec caseTable tables id data) ∧
    (∀ id data, (recordSpec caseTable tables id data).Name = Title tables id ∧
      (recordSpec caseTable tables id data).Symbol = ToUpper caseTable id ∧
      (recordSpec caseTable tables id data).Price = data.index "usd" ∧
      (recordSpec caseTable tables id data).Change =
        Sprintf2f (data.index "usd_24h_change") ++ "%") := by
  rw [fetchCryptoData_decoded_eq]
  refine ⟨rfl, by simp, result.nodup, ?_, ?_, fun _ _ => ⟨rfl, rfl, rfl, rfl⟩⟩
  · intro id data h
    exact List.mem_map.mpr ⟨(id, data), h, rfl⟩
  · intro r hr
    obtain ⟨e, he, hre⟩ := List.mem_map.mp hr
    exact ⟨e.1, e.2, he, hre.symm⟩

/-- C13: when the upstream call fails or its body does not decode,
`fetchCryptoData` answers 500 and the state after the call, cache and snapshot
file, is the state before it. -/
theorem fetchCryptoData_failure_changes_nothing (caseTable : Char → Char)
    (tables : TitleTables) (createErr : Bool) (st : State) :
    fetchCryptoData caseTable tables .getError createErr st =
      (JSON StatusInternalServerError (.message "Failed to fetch crypto data"), st) ∧
    fetchCryptoData caseTable tables .decodeError createErr st =
      (JSON StatusInternalServerError (.message "Error decoding response"), st) ∧
    (fetchCryptoData caseTable tables .getError createErr st).1.status = 500 ∧
    (fetchCryptoData caseTable tables .decodeError createErr st).1.status = 500 ∧
    (fetchCryptoData caseTable tables .getError createErr st).2.cryptos = st.cryptos ∧
    (fetchCryptoData caseTable tables .getError createErr st).2.file = st.file ∧
    (fetchCryptoData caseTable tables .decodeError createErr st).2.cryptos = st.cryptos ∧
    (fetchCryptoData caseTable tables .decodeError createErr st).2.file = st.file :=
  ⟨rfl, rfl, rfl, rfl, rfl, rfl, rfl, rfl⟩

/-- C16: for every decoded upstream mapping `fetchCryptoData` answers 200 with
the message "Crypto data fetched successfully!" and replaces the cache by the
same records, whether `os.Create` fails in `saveToCSV` or not; when it fails
the snapshot file stays as it was, otherwise it holds the rows of the new
cache. -/
theorem fetchCryptoData_success_despite_snapshot (caseTable : Char → Char)
    (tables : TitleTables) (result : GoMap (GoMap ℚ)) (createErr : Bool) (st : State) :
    (fetchCryptoData caseTable tables (.decoded result) createErr st).1 =
      JSON StatusOK (.message "Crypto data fetched successfully!") ∧
    (fetchCryptoData caseTable tables (.decoded result) createErr st).1.status = 200 ∧
    (fetchCryptoData caseTable tables (.decoded result) createErr st).2.cryptos =
      result.entries.map (fun e => recordSpec caseTable tables e.1 e.2) ∧
    (fetchCryptoData caseTable tables (.decoded result) true st).2.file = st.file ∧
    (fetchCryptoData caseTable tables (.decoded result) false st).2.file =
      some (csvRowsSpec (result.entries.map (fun e => recordSpec caseTable tables e.1 e.2))) ∧
    saveToCSV true (result.entries.map (fun e => recordSpec caseTable tables e.1 e.2)) =
      none := by
  refine ⟨by rw [fetchCryptoData_decoded_eq], by rw [fetchCryptoData_decoded_eq]; rfl,
    by rw [fetchCryptoData_decoded_eq], by rw [fetchCryptoData_decoded_eq]; rfl, ?_, rfl⟩
  rw [fetchCryptoData_decoded_eq, saveToCSV_created_eq]

/-! ## C14 and C15: readers and the empty cache -/

theorem getTopGainerLoser_cache (cryptos : List Crypto) :
    (getTopGainerLoser cryptos).2 = cryptos := by
  by_cases h : cryptos = []
  · subst h
    rfl
  · rw [getTopGainerLoser_eq cryptos h]

/-- C14: `getCryptoData`, `searchCrypto`, `getTopGainerLoser` and `downloadCSV`
leave the cache exactly as it was, for every cache and every input, and
`getCryptoData` answers 200 with the cache itself, element for element and in
order. -/
theorem readers_leave_cache (caseTable : Char → Char) (symbol : Option String)
    (cryptos : List Crypto) :
    getCryptoData cryptos = (JSON StatusOK (.cryptos cryptos), cryptos) ∧
    (getCryptoData cryptos).2 = cryptos ∧
    (searchCrypto caseTable symbol cryptos).2 = cryptos ∧
    (getTopGainerLoser cryptos).2 = cryptos ∧
    (downloadCSV cryptos).2 = cryptos :=
  ⟨rfl, rfl, rfl, getTopGainerLoser_cache cryptos, rfl⟩

/-- C15: on the empty cache `getCryptoData` and `sortCryptos` (for every value
of `order`, present or not) answer 200 with the empty sequence and leave the
cache empty, and `downloadCSV` answers 200 with the header row and no data
row. -/
theorem empty_cache_is_no_error (order : Option String) :
    getCryptoData [] = (JSON StatusOK (.cryptos []), []) ∧
    sortCryptos order [] = (JSON StatusOK (.cryptos []), []) ∧
    downloadCSV [] =
      (⟨StatusOK, [("Content-Type", "text/csv"),
          ("Content-Disposition", "attachment; filename=crypto_data.csv")],
        .csv [["Name", "Symbol", "Price (USD)", "24h Change"]]⟩, []) ∧
    (getCryptoData []).1.status = 200 ∧ (sortCryptos order []).1.status = 200 ∧
    (downloadCSV []).1.status = 200 := by
  have hsort : sortCryptos order [] = (JSON StatusOK (.cryptos []), []) := by
    obtain ⟨sorted, heq, hperm⟩ := sortCryptos_eq_perm order []
    rw [heq, List.Perm.eq_nil hperm]
  refine ⟨rfl, hsort, rfl, rfl, ?_, rfl⟩
  rw [hsort]
  rfl

/-! ## C19: where the two results come from -/

theorem f64_not_lt_trans (a b c : F64) (ha : a ≠ .nan) (hb : b ≠ .nan) (hc : c ≠ .nan)
    (hab : F64.lt a b = false) (hbc : F64.lt b c = false) : F64.lt a c = false := by
  cases a with
  | nan => exact absurd rfl ha
  | inf x =>
    cases b with
    | nan => exact absurd rfl hb
    | inf y =>
      cases c with
      | nan => exact absurd rfl hc
      | inf z => cases x <;> cases y <;> cases z <;> simp_all [F64.lt]
      | fin r => cases x <;> cases y <;> simp_all [F64.lt]
    | fin q =>
      cases c with
      | nan => exact absurd rfl hc
      | inf z => cases x <;> cases z <;> simp_all [F64.lt]
      | fin r => cases x <;> simp_all [F64.lt]
  | fin p =>
    cases b with
    | nan => exact absurd rfl hb
    | inf y =>
      cases c with
      | nan => exact absurd rfl hc
      | inf z => cases y <;> cases z <;> simp_all [F64.lt]
      | fin r => cases y <;> simp_all [F64.lt]
    | fin q =>
      cases c with
      | nan => exact absurd rfl hc
      | inf z => cases z <;> simp_all [F64.lt]
      | fin r =>
        simp only [F64.lt, decide_eq_false_iff_not, not_lt] at hab hbc ⊢
        exact le_trans hbc hab

/-- The running pair for `better` is the start pair or a record of the list
with its parsed change, which no number parsed from the list improves on. -/
theorem bestBy_mem (better : F64 → F64 → Bool)
    (hnan : ∀ b, better .nan b = false)
    (hirr : ∀ a, better a a = false)
    (hasym : ∀ a b, better a b = true → better b a = false)
    (htrans : ∀ a b c, better a b = true → better b c = true → better a c = true)
    (hcut : ∀ c c0 w, better c c0 = true → better w c0 = false → w ≠ .nan → c0 ≠ .nan →
      better c w = true)
    (l : List Crypto) (g0 : Crypto) (c0 : F64) (hc0 : c0 ≠ .nan) :
    ((∀ x ∈ l, ∀ w, parseChange x = .ok w → better w c0 = false) ∧
        (bestBy better l (g0, c0)).1 = g0) ∨
    (∃ c, (bestBy better l (g0, c0)).1 ∈ l ∧
        parseChange (bestBy better l (g0, c0)).1 = .ok c ∧ c ≠ .nan ∧
        ∀ x ∈ l, ∀ w, parseChange x = .ok w → w ≠ .nan → better w c = false) := by
  rcases bestBy_spec better hnan htrans hcut l g0 c0 hc0 with
    ⟨hall, hres⟩ | ⟨pre, r, post, c, hl, hr, hres, hb, hpre, hpost⟩
  · left
    exact ⟨hall, by rw [hres]⟩
  · right
    have hcn : c ≠ .nan := by
      intro h
      rw [h, hnan] at hb
      cases hb
    refine ⟨c, by rw [hres, hl]; simp, by rw [hres]; exact hr, hcn, ?_⟩
    intro x hx w hw hwn
    rw [hl] at hx
    rcases List.mem_append.mp hx with h | h
    · exact hasym c w (hpre x h w hw hwn)
    · rcases List.mem_cons.mp h with h | h
      · rw [h, hr] at hw
        cases hw
        exact hirr _
      · exact hpost x h w hw

theorem bestBy_gt_mem (l : List Crypto) (g0 : Crypto) (c0 : F64) (hc0 : c0 ≠ .nan) :
    ((∀ x ∈ l, ∀ w, parseChange x = .ok w → F64.gt w c0 = false) ∧
        (bestBy F64.gt l (g0, c0)).1 = g0) ∨
    (∃ c, (bestBy F64.gt l (g0, c0)).1 ∈ l ∧
        parseChange (bestBy F64.gt l (g0, c0)).1 = .ok c ∧ c ≠ .nan ∧
        ∀ x ∈ l, ∀ w, parseChange x = .ok w → w ≠ .nan → F64.lt c w = false) :=
  bestBy_mem F64.gt (fun b => f64_lt_nan_right b) f64_lt_irrefl
    (fun a b h => f64_lt_asymm b a h)
    (fun a b c hab hbc => f64_lt_trans c b a hbc hab)
    (fun c c0 w h1 h2 hw h0 => f64_lt_of_not_lt_of_lt c c0 w h1 h2 hw h0) l g0 c0 hc0

theorem bestBy_lt_mem (l : List Crypto) (g0 : Crypto) (c0 : F64) (hc0 : c0 ≠ .nan) :
    ((∀ x ∈ l, ∀ w, parseChange x = .ok w → F64.lt w c0 = false) ∧
        (bestBy F64.lt l (g0, c0)).1 = g0) ∨
    (∃ c, (bestBy F64.lt l (g0, c0)).1 ∈ l ∧
        parseChange (bestBy F64.lt l (g0, c0)).1 = .ok c ∧ c ≠ .nan ∧
        ∀ x ∈ l, ∀ w, parseChange x = .ok w → w ≠ .nan → F64.lt w c = false) :=
  bestBy_mem F64.lt f64_lt_nan_left f64_lt_irrefl f64_lt_asymm f64_lt_trans
    (fun c c0 w h1 h2 hw h0 => f64_lt_of_lt_of_not_lt c c0 w h1 h2 hw h0) l g0 c0 hc0

/-- C19: on every non-empty cache each of `top_gainer` and `top_loser` is the
zero-value record or a record of the cache as it stands there; and when the
change of some record parses to a value strictly between -100 and 100, both are
records of the cache, both have a change that parses, and the parsed change of
`top_loser` is `<=` the parsed change of `top_gainer`. -/
theorem getTopGainerLoser_results_from_cache (cryptos : List Crypto) (h : cryptos ≠ []) :
    ∃ g l, getTopGainerLoser cryptos = (JSON StatusOK (.gainerLoser g l), cryptos) ∧
      (g = Crypto.zero ∨ g ∈ cryptos) ∧ (l = Crypto.zero ∨ l ∈ cryptos) ∧
      ((∃ r ∈ cryptos, ∃ v, parseChange r = .ok v ∧ F64.lt (.fin (-100)) v = true ∧
          F64.lt v (.fin 100) = true) →
        g ∈ cryptos ∧ l ∈ cryptos ∧
        ∃ cg cl, parseChange g = .ok cg ∧ parseChange l = .ok cl ∧
          F64.le cl cg = true) := by
  refine ⟨_, _, getTopGainerLoser_eq cryptos h, ?_, ?_, ?_⟩
  · rcases bestBy_gt_mem cryptos Crypto.zero (.fin (-100)) (by simp) with
      ⟨_, hz⟩ | ⟨c, hm, _⟩
    · exact Or.inl hz
    · exact Or.inr hm
  · rcases bestBy_lt_mem cryptos Crypto.zero (.fin 100) (by simp) with
      ⟨_, hz⟩ | ⟨c, hm, _⟩
    · exact Or.inl hz
    · exact Or.inr hm
  · rintro ⟨r, hr, v, hv, hlo, hhi⟩
    have hvn : v ≠ .nan := by
      intro hn
      rw [hn, f64_lt_nan_left] at hhi
      cases hhi
    rcases bestBy_gt_mem cryptos Crypto.zero (.fin (-100)) (by simp) with
      ⟨hall, _⟩ | ⟨cg, hgm, hgp, hgn, hgmax⟩
    · have := hall r hr v hv
      unfold F64.gt at this
      rw [hlo] at this
      cases this
    rcases bestBy_lt_mem cryptos Crypto.zero (.fin 100) (by simp) with
      ⟨hall, _⟩ | ⟨cl, hlm, hlp, hln, hlmin⟩
    · have := hall r hr v hv
      rw [hhi] at this
      cases this
    refine ⟨hgm, hlm, cg, cl, hgp, hlp, ?_⟩
    rw [f64_le_iff cl cg hln hgn]
    exact f64_not_lt_trans cg v cl hgn hvn hln (hgmax r hr v hv hvn) (hlmin r hr v hv hvn)

/-- C19 on a cache of three records: the middle record has the change "150.00%",
the others "-2.00%" and "3.50%". -/
theorem getTopGainerLoser_results_from_cache_witness :
    ([⟨"Bitcoin", "BITCOIN", 5, "-2.00%"⟩, ⟨"Ripple", "RIPPLE", 1, "150.00%"⟩,
        ⟨"Solana", "SOLANA", 9, "3.50%"⟩] : List Crypto) ≠ [] ∧
    ∃ g l, getTopGainerLoser [⟨"Bitcoin", "BITCOIN", 5, "-2.00%"⟩,
          ⟨"Ripple", "RIPPLE", 1, "150.00%"⟩, ⟨"Solana", "SOLANA", 9, "3.50%"⟩] =
        (JSON StatusOK (.gainerLoser g l), [⟨"Bitcoin", "BITCOIN", 5, "-2.00%"⟩,
          ⟨"Ripple", "RIPPLE", 1, "150.00%"⟩, ⟨"Solana", "SOLANA", 9, "3.50%"⟩]) ∧
      g ∈ [(⟨"Bitcoin", "BITCOIN", 5, "-2.00%"⟩ : Crypto),
          ⟨"Ripple", "RIPPLE", 1, "150.00%"⟩, ⟨"Solana", "SOLANA", 9, "3.50%"⟩] ∧
      l ∈ [(⟨"Bitcoin", "BITCOIN", 5, "-2.00%"⟩ : Crypto),
          ⟨"Ripple", "RIPPLE", 1, "150.00%"⟩, ⟨"Solana", "SOLANA", 9, "3.50%"⟩] ∧
      ∃ cg cl, parseChange g = .ok cg ∧ parseChange l = .ok cl ∧ F64.le cl cg = true := by
  obtain ⟨g, l, heq, _, _, hboth⟩ :=
    getTopGainerLoser_results_from_cache [⟨"Bitcoin", "BITCOIN", 5, "-2.00%"⟩,
      ⟨"Ripple", "RIPPLE", 1, "150.00%"⟩, ⟨"Solana", "SOLANA", 9, "3.50%"⟩]
      (List.cons_ne_nil _ _)
  have hp : parseChange ⟨"Bitcoin", "BITCOIN", 5, "-2.00%"⟩ = .ok (.fin (-2)) := by rfl
  obtain ⟨hg, hl, hle⟩ := hboth ⟨_, List.mem_cons_self _ _, _, hp, by decide, by decide⟩
  exact ⟨List.cons_ne_nil _ _, g, l, heq, hg, hl, hle⟩

/-! ## What `fmt.Sprintf("%.2f")` writes -/

theorem digitChar_isDecDigit (d : Nat) (h : d < 10) :
    isDecDigit (Nat.digitChar d) = true ∧ (Nat.digitChar d).toNat - '0'.toNat = d := by
  interval_cases d <;> exact ⟨rfl, rfl⟩

theorem digitsVal_append (l1 l2 : List Char) :
    digitsVal (l1 ++ l2) = l2.foldl (fun m c => m * 10 + (c.toNat - '0'.toNat)) (digitsVal l1) := by
  simp [digitsVal, List.foldl_append]

theorem digitsVal_append_singleton (l : List Char) (c : Char) :
    digitsVal (l ++ [c]) = digitsVal l * 10 + (c.toNat - '0'.toNat) := by
  rw [digitsVal_append]
  rfl

theorem toDigitsCore_append (fuel n : Nat) (ds : List Char) :
    Nat.toDigitsCore 10 fuel n ds = Nat.toDigitsCore 10 fuel n [] ++ ds := by
  induction fuel generalizing n ds with
  | zero => simp [Nat.toDigitsCore]
  | succ fuel ih =>
    simp only [Nat.toDigitsCore]
    split
    · simp
    · rw [ih (n / 10) (Nat.digitChar (n % 10) :: ds), ih (n / 10) [Nat.digitChar (n % 10)]]
      simp

/-- The digits `Nat.toDigitsCore` writes with enough fuel: at least one, all of
them decimal digits, and they write the number. -/
theorem toDigitsCore_spec (fuel n : Nat) (h : n < fuel) :
    Nat.toDigitsCore 10 fuel n [] ≠ [] ∧
    (∀ c ∈ Nat.toDigitsCore 10 fuel n [], isDecDigit c = true) ∧
    digitsVal (Nat.toDigitsCore 10 fuel n []) = n := by
  induction fuel generalizing n with
  | zero => omega
  | succ fuel ih =>
    have hd := digitChar_isDecDigit (n % 10) (Nat.mod_lt _ (by norm_num))
    simp only [Nat.toDigitsCore]
    by_cases h0 : n / 10 = 0
    · rw [if_pos h0]
      refine ⟨by simp, ?_, ?_⟩
      · intro c hc
        rw [List.mem_singleton.mp hc]
        exact hd.1
      · have : digitsVal [Nat.digitChar (n % 10)] = (Nat.digitChar (n % 10)).toNat - '0'.toNat := by
          simp [digitsVal]
        rw [this, hd.2]
        omega
    · rw [if_neg h0, toDigitsCore_append]
      have hlt : n / 10 < fuel := by omega
      obtain ⟨_, hall, hval⟩ := ih (n / 10) hlt
      refine ⟨by simp, ?_, ?_⟩
      · intro c hc
        rcases List.mem_append.mp hc with h1 | h1
        · exact hall c h1
        · rw [List.mem_singleton.mp h1]
          exact hd.1
      · rw [digitsVal_append_singleton, hval, hd.2]
        omega

/-- The decimal numeral of a natural number: at least one character, all of them
decimal digits, and they write the number. -/
theorem repr_spec (n : Nat) :
    (toString n).data ≠ [] ∧ (∀ c ∈ (toString n).data, isDecDigit c = true) ∧
    digitsVal (toString n).data = n := by
  have h := toDigitsCore_spec (n + 1) n (Nat.lt_succ_self n)
  exact h

theorem two_digits (k : Nat) (h : k < 100) :
    ∃ a b, ((if k < 10 then "0" else "") ++ toString k).data = [a, b] ∧
      isDecDigit a = true ∧ isDecDigit b = true ∧ digitsVal [a, b] = k := by
  interval_cases k <;> exact ⟨_, _, rfl, rfl, rfl, rfl⟩

/-- The characters `Sprintf2f` writes: a '-' for a negative value, the decimal
numeral of the integer part, a point and two decimal digits; the digits
together write the value in hundredths, rounded to nearest, ties to even. -/
theorem Sprintf2f_data (x : ℚ) :
    ∃ I a b, (Sprintf2f x).data = (if x < 0 then ['-'] else []) ++ (I ++ ['.', a, b]) ∧
      I ≠ [] ∧ (∀ c ∈ I, isDecDigit c = true) ∧ isDecDigit a = true ∧
      isDecDigit b = true ∧
      digitsVal (I ++ [a, b]) = roundHalfEven (x.num.natAbs * 100) x.den := by
  obtain ⟨hne, hall, hval⟩ := repr_spec (roundHalfEven (x.num.natAbs * 100) x.den / 100)
  obtain ⟨a, b, hab, ha, hb, habv⟩ :=
    two_digits (roundHalfEven (x.num.natAbs * 100) x.den % 100) (Nat.mod_lt _ (by norm_num))
  refine ⟨_, a, b, ?_, hne, hall, ha, hb, ?_⟩
  · have hsign : (if x < 0 then "-" else "").data = (if x < 0 then ['-'] else []) := by
      split <;> rfl
    have happ : ∀ s1 s2 s3 s4 s5 : String,
        (s1 ++ s2 ++ s3 ++ s4 ++ s5).data = s1.data ++ (s2.data ++ (s3.data ++ (s4 ++ s5).data)) := by
      intro s1 s2 s3 s4 s5
      simp [String.data_append]
    unfold Sprintf2f
    simp only []
    rw [happ, hab, hsign]
    rfl
  · have h2 : digitsVal [a, b] = (a.toNat - '0'.toNat) * 10 + (b.toNat - '0'.toNat) := by
      simp [digitsVal]
    rw [show (toString (roundHalfEven (x.num.natAbs * 100) x.den / 100)).data ++ [a, b] =
      ((toString (roundHalfEven (x.num.natAbs * 100) x.den / 100)).data ++ [a]) ++ [b] by simp,
      digitsVal_append_singleton, digitsVal_append_singleton, hval]
    rw [h2] at habv
    omega

theorem takeWhile_digits (I rest : List Char) (y : Char)
    (hall : ∀ c ∈ I, isDecDigit c = true) (hy : isDecDigit y = false) :
    (I ++ y :: rest).takeWhile isDecDigit = I ∧
    (I ++ y :: rest).dropWhile isDecDigit = y :: rest := by
  induction I with
  | nil => simp [List.takeWhile, List.dropWhile, hy]
  | cons c I ih =>
    have hc := hall c (List.mem_cons_self _ _)
    have hI := ih (fun d hd => hall d (List.mem_cons_of_mem _ hd))
    simp [List.takeWhile, List.dropWhile, hc, hI.1, hI.2]

/-- A string of the shape sign, digits, point, two digits, '%' passes
`isTwoDecimalPercent`. -/
theorem isTwoDecimalPercent_of_shape (s : String) (sign I : List Char) (a b : Char)
    (hs : s.data = sign ++ (I ++ ['.', a, b, '%'])) (hsign : sign = ['-'] ∨ sign = [])
    (hne : I ≠ []) (hall : ∀ c ∈ I, isDecDigit c = true)
    (ha : isDecDigit a = true) (hb : isDecDigit b = true) :
    isTwoDecimalPercent s = true := by
  have hcs : (match s.data with
      | c :: t => if c = '-' then t else c :: t
      | [] => []) = I ++ ['.', a, b, '%'] := by
    rw [hs]
    rcases hsign with h | h
    · rw [h]
      simp
    · rw [h]
      cases I with
      | nil => exact absurd rfl hne
      | cons c I =>
        have hc : c ≠ '-' := by
          intro hc
          have := hall c (List.mem_cons_self _ _)
          rw [hc] at this
          exact absurd this (by decide)
        simp [hc]
  have hfun : (fun (c : Char) => decide ('0' ≤ c ∧ c ≤ '9')) = isDecDigit := rfl
  have htd := takeWhile_digits I [a, b, '%'] '.' hall (by decide)
  unfold isTwoDecimalPercent
  simp only [hcs, hfun, htd.1, htd.2, ha, hb]
  cases I with
  | nil => exact absurd rfl hne
  | cons c I =>
    simp
    exact ⟨by simpa [isDecDigit] using ha, by simpa [isDecDigit] using hb⟩

theorem isTwoDecimalPercent_Sprintf (x : ℚ) :
    isTwoDecimalPercent (Sprintf2fPercent x) = true := by
  obtain ⟨I, a, b, hdata, hne, hall, ha, hb, _⟩ := Sprintf2f_data x
  apply isTwoDecimalPercent_of_shape (Sprintf2fPercent x) (if x < 0 then ['-'] else []) I a b
    _ _ hne hall ha hb
  · unfold Sprintf2fPercent
    rw [String.data_append, hdata]
    simp
  · split
    · exact Or.inl rfl
    · exact Or.inr rfl

/-! ## C12: the records of a refresh and the requested identifiers -/

/-- C12, amended: after every successful refresh, whatever identifiers the
decoded mapping holds, the cache holds exactly one record per identifier of the
mapping (the identifiers are pairwise different, the cache is as long as the
mapping and its records are those of the entries, in the order of the
iteration), the symbol of each record is its identifier uppercased, and the
change of every record is a decimal with exactly two fractional digits followed
by '%'. When the identifiers of the mapping are the requested ones (each once,
in any order), that is one record per requested identifier, seven records. -/
theorem fetchCryptoData_one_record_per_returned (caseTable : Char → Char)
    (tables : TitleTables) (result : GoMap (GoMap ℚ)) (createErr : Bool) (st : State) :
    (fetchCryptoData caseTable tables (.decoded result) createErr st).1 =
      JSON StatusOK (.message "Crypto data fetched successfully!") ∧
    (fetchCryptoData caseTable tables (.decoded result) createErr st).2.cryptos =
      result.entries.map (fun e => recordSpec caseTable tables e.1 e.2) ∧
    (result.entries.map Prod.fst).Nodup ∧
    (fetchCryptoData caseTable tables (.decoded result) createErr st).2.cryptos.length =
      (result.entries.map Prod.fst).length ∧
    (fetchCryptoData caseTable tables (.decoded result) createErr st).2.cryptos.map
        (fun r => r.Symbol) = (result.entries.map Prod.fst).map (ToUpper caseTable) ∧
    (∀ r ∈ (fetchCryptoData caseTable tables (.decoded result) createErr st).2.cryptos,
      isTwoDecimalPercent r.Change = true) ∧
    ((result.entries.map Prod.fst).Perm cryptoSymbols →
      OneRecordPerRequested caseTable
        (fetchCryptoData caseTable tables (.decoded result) createErr st).2.cryptos ∧
      (fetchCryptoData caseTable tables (.decoded result) createErr st).2.cryptos.length =
        7) := by
  rw [fetchCryptoData_decoded_eq]
  have hsym : (result.entries.map (fun e => recordSpec caseTable tables e.1 e.2)).map
      (fun r => r.Symbol) = (result.entries.map Prod.fst).map (ToUpper caseTable) := by
    simp [recordSpec, List.map_map, Function.comp_def]
  have hchange : ∀ r ∈ result.entries.map (fun e => recordSpec caseTable tables e.1 e.2),
      isTwoDecimalPercent r.Change = true := by
    intro r hr
    obtain ⟨e, _, hre⟩ := List.mem_map.mp hr
    rw [← hre]
    exact isTwoDecimalPercent_Sprintf _
  have hlen : (result.entries.map (fun e => recordSpec caseTable tables e.1 e.2)).length =
      (result.entries.map Prod.fst).length := by
    rw [List.length_map, List.length_map]
  refine ⟨rfl, rfl, result.nodup, hlen, hsym, hchange, fun h => ⟨⟨?_, hchange⟩, ?_⟩⟩
  · show ((result.entries.map (fun e => recordSpec caseTable tables e.1 e.2)).map
      (fun r => r.Symbol)).Perm _
    rw [hsym]
    exact h.map _
  · show (result.entries.map (fun e => recordSpec caseTable tables e.1 e.2)).length = 7
    rw [hlen, h.length_eq]
    rfl

/-- C12, amended, on a response that holds the seven requested identifiers, and
on the response `{"bitcoin": {"usd": 50000, "usd_24h_change": 1.5}}`, where the
cache holds the one record of the one returned identifier. -/
theorem fetchCryptoData_one_record_per_returned_witness :
    ((fullResponse.entries.map Prod.fst).Perm cryptoSymbols ∧
      OneRecordPerRequested id
        (fetchCryptoData id plainTables (.decoded fullResponse) false ⟨[], none⟩).2.cryptos ∧
      (fetchCryptoData id plainTables (.decoded fullResponse) false ⟨[], none⟩).2.cryptos.length =
        7 ∧
      (fetchCryptoData id plainTables (.decoded fullResponse) false ⟨[], none⟩).2.cryptos.map
        (fun r => r.Change) =
        ["-3.42%", "1.50%", "120.00%", "-0.00%", "0.00%", "0.12%", "-100.00%"]) ∧
    ((fetchCryptoData id plainTables (.decoded bitcoinOnly) false ⟨[], none⟩).2.cryptos.length =
        (bitcoinOnly.entries.map Prod.fst).length ∧
      (fetchCryptoData id plainTables (.decoded bitcoinOnly) false ⟨[], none⟩).2.cryptos.map
        (fun r => r.Symbol) = (bitcoinOnly.entries.map Prod.fst).map (ToUpper id) ∧
      (bitcoinOnly.entries.map Prod.fst).map (ToUpper id) = ["BITCOIN"] ∧
      ∀ r ∈ (fetchCryptoData id plainTables (.decoded bitcoinOnly) false ⟨[], none⟩).2.cryptos,
        isTwoDecimalPercent r.Change = true) := by
  have hperm : (fullResponse.entries.map Prod.fst).Perm cryptoSymbols := by decide
  have hfull :=
    fetchCryptoData_one_record_per_returned id plainTables fullResponse false ⟨[], none⟩
  have hone :=
    fetchCryptoData_one_record_per_returned id plainTables bitcoinOnly false ⟨[], none⟩
  exact ⟨⟨hperm, (hfull.2.2.2.2.2.2 hperm).1, (hfull.2.2.2.2.2.2 hperm).2, by decide⟩,
    hone.2.2.2.1, hone.2.2.2.2.1, by decide, hone.2.2.2.2.2.1⟩

/-- C12 as it is stated fails on the decoded response
`{"bitcoin": {"usd": 50000, "usd_24h_change": 1.5}}`: the refresh succeeds and
the cache holds one record, not one per requested identifier. -/
theorem fetchCryptoData_per_requested_fails :
    (fetchCryptoData id plainTables (.decoded bitcoinOnly) false ⟨[], none⟩).1 =
      JSON StatusOK (.message "Crypto data fetched successfully!") ∧
    (fetchCryptoData id plainTables (.decoded bitcoinOnly) false ⟨[], none⟩).2.cryptos =
      [⟨"Bitcoin", "BITCOIN", 50000, "1.50%"⟩] ∧
    ¬ OneRecordPerRequested id
      (fetchCryptoData id plainTables (.decoded bitcoinOnly) false ⟨[], none⟩).2.cryptos := by
  have hval : (fetchCryptoData id plainTables (.decoded bitcoinOnly) false
      ⟨[], none⟩).2.cryptos = [⟨"Bitcoin", "BITCOIN", 50000, "1.50%"⟩] := by decide
  refine ⟨rfl, hval, ?_⟩
  rintro ⟨hperm, _⟩
  rw [hval] at hperm
  have := hperm.length_eq
  simp [cryptoSymbols] at this

/-! ## C17: search after a refresh -/

theorem unicodeToUpper_ascii (caseTable : Char → Char) (c : Char) (h : c.toNat ≤ 0x7F) :
    unicodeToUpper caseTable c = unicodeToUpper id c := by
  simp [unicodeToUpper, h]

theorem unicodeToUpper_ascii_closed :
    ∀ n : Fin 128, (unicodeToUpper id (Char.ofNat n)).toNat ≤ 0x7F ∧
      unicodeToUpper id (unicodeToUpper id (Char.ofNat n)) = unicodeToUpper id (Char.ofNat n) := by
  decide

theorem unicodeToUpper_ascii_fixed (caseTable : Char → Char) (c : Char) (h : c.toNat ≤ 0x7F) :
    (unicodeToUpper caseTable c).toNat ≤ 0x7F ∧
      unicodeToUpper caseTable (unicodeToUpper caseTable c) = unicodeToUpper caseTable c := by
  have hc : c = Char.ofNat ((⟨c.toNat, by omega⟩ : Fin 128) : Nat) := by
    simp [Char.ofNat_toNat]
  have key := unicodeToUpper_ascii_closed ⟨c.toNat, by omega⟩
  rw [← hc] at key
  rw [unicodeToUpper_ascii caseTable c h]
  refine ⟨key.1, ?_⟩
  rw [unicodeToUpper_ascii caseTable _ key.1]
  exact key.2

/-- Uppercasing an ASCII string twice is uppercasing it once. -/
theorem ToUpper_ascii_fixed (caseTable : Char → Char) (s : String)
    (h : ∀ c ∈ s.data, c.toNat ≤ 0x7F) :
    ToUpper caseTable (ToUpper caseTable s) = ToUpper caseTable s := by
  unfold ToUpper
  simp only [List.map_map]
  congr 1
  apply List.map_congr_left
  intro c hc
  exact (unicodeToUpper_ascii_fixed caseTable c (h c hc)).2

/-- A search whose uppercased query is the symbol of a record of the cache
answers 200 with a record of that symbol. -/
theorem searchCrypto_finds (caseTable : Char → Char) (symbol : Option String)
    (cryptos : List Crypto) (x : Crypto) (hx : x ∈ cryptos)
    (hsym : x.Symbol = ToUpper caseTable (Query symbol)) :
    ∃ r ∈ cryptos, r.Symbol = ToUpper caseTable (Query symbol) ∧
      searchCrypto caseTable symbol cryptos = (JSON StatusOK (.crypto r), cryptos) := by
  rcases first_or_none (fun y : Crypto => y.Symbol = ToUpper caseTable (Query symbol)) cryptos
    with ⟨pre, r, post, hl, hr, hpre⟩ | hnone
  · refine ⟨r, by rw [hl]; simp, hr, ?_⟩
    show (searchCrypto.loop _ cryptos, cryptos) = _
    rw [hl, searchLoop_first _ pre r post hr hpre]
  · exact absurd hsym (hnone x hx)

/-- C17: after a successful refresh over any decoded mapping, for every
identifier `id` of the mapping and every query whose uppercased form is the
uppercased `id`, `searchCrypto` answers 200 with a record of the cache whose
symbol is `id` uppercased, not 404. The queries "bitcoin" and "BITCOIN" are such
queries for "bitcoin" and "Shiba-Inu" is one for "shiba-inu"; and the symbol
built from an ASCII identifier is a fixed point of uppercasing, so that the
symbol itself is such a query. -/
theorem searchCrypto_after_refresh (caseTable : Char → Char) (tables : TitleTables)
    (result : GoMap (GoMap ℚ)) (createErr : Bool) (st : State) :
    (∀ id data, (id, data) ∈ result.entries → ∀ q : Option String,
      ToUpper caseTable (Query q) = ToUpper caseTable id →
      ∃ r ∈ (fetchCryptoData caseTable tables (.decoded result) createErr st).2.cryptos,
        r.Symbol = ToUpper caseTable id ∧
        searchCrypto caseTable q
            (fetchCryptoData caseTable tables (.decoded result) createErr st).2.cryptos =
          (JSON StatusOK (.crypto r),
            (fetchCryptoData caseTable tables (.decoded result) createErr st).2.cryptos) ∧
        (searchCrypto caseTable q
            (fetchCryptoData caseTable tables (.decoded result) createErr st).2.cryptos).1 ≠
          JSON StatusNotFound (.message "Crypto not found")) ∧
    (ToUpper caseTable (Query (some "bitcoin")) = ToUpper caseTable "bitcoin" ∧
      ToUpper caseTable (Query (some "BITCOIN")) = ToUpper caseTable "bitcoin" ∧
      ToUpper caseTable (Query (some "Shiba-Inu")) = ToUpper caseTable "shiba-inu") ∧
    (∀ id : String, (∀ c ∈ id.data, c.toNat ≤ 0x7F) →
      ToUpper caseTable (Query (some (ToUpper caseTable id))) = ToUpper caseTable id) := by
  refine ⟨?_, ⟨rfl, rfl, rfl⟩, fun id h => ToUpper_ascii_fixed caseTable id h⟩
  intro id data hmem q hq
  have hx : recordSpec caseTable tables id data ∈
      (fetchCryptoData caseTable tables (.decoded result) createErr st).2.cryptos := by
    rw [fetchCryptoData_decoded_eq]
    exact List.mem_map.mpr ⟨(id, data), hmem, rfl⟩
  obtain ⟨r, hr, hsym, heq⟩ := searchCrypto_finds caseTable q _ _ hx
    (show (recordSpec caseTable tables id data).Symbol = _ from hq.symm)
  refine ⟨r, hr, hsym.trans hq, heq, ?_⟩
  rw [heq]
  simp [JSON, StatusOK, StatusNotFound]

/-- C17 on the response with the seven requested identifiers and the query
"Shiba-Inu". -/
theorem searchCrypto_after_refresh_witness :
    ("shiba-inu", (⟨[("usd", mkRat 1 100000), ("usd_24h_change", 120)], by decide⟩ : GoMap ℚ)) ∈
      fullResponse.entries ∧
    ToUpper id (Query (some "Shiba-Inu")) = ToUpper id "shiba-inu" ∧
    ∃ r ∈ (fetchCryptoData id plainTables (.decoded fullResponse) false ⟨[], none⟩).2.cryptos,
      r.Symbol = ToUpper id "shiba-inu" ∧
      searchCrypto id (some "Shiba-Inu")
          (fetchCryptoData id plainTables (.decoded fullResponse) false ⟨[], none⟩).2.cryptos =
        (JSON StatusOK (.crypto r),
          (fetchCryptoData id plainTables (.decoded fullResponse) false ⟨[], none⟩).2.cryptos) ∧
      (searchCrypto id (some "Shiba-Inu")
          (fetchCryptoData id plainTables (.decoded fullResponse) false
            ⟨[], none⟩).2.cryptos).1 ≠
        JSON StatusNotFound (.message "Crypto not found") := by
  have hmem : ("shiba-inu",
      (⟨[("usd", mkRat 1 100000), ("usd_24h_change", 120)], by decide⟩ : GoMap ℚ)) ∈
      fullResponse.entries := by
    simp [fullResponse]
  exact ⟨hmem, rfl,
    (searchCrypto_after_refresh id plainTables fullResponse false ⟨[], none⟩).1 _ _ hmem
      (some "Shiba-Inu") rfl⟩

/-! ## C18: the change a refresh writes is read back by the scan -/

theorem isDecDigit_cases (c : Char) (h : isDecDigit c = true) :
    c ∈ ['0', '1', '2', '3', '4', '5', '6', '7', '8', '9'] := by
  have h' : '0' ≤ c ∧ c ≤ '9' := by simpa [isDecDigit] using h
  have h1 : 48 ≤ c.toNat := h'.1
  have h2 : c.toNat ≤ 57 := h'.2
  have hc : c = Char.ofNat c.toNat := (Char.ofNat_toNat c).symm
  generalize c.toNat = n at h1 h2 hc
  subst hc
  interval_cases n <;> decide

/-- The facts about a decimal digit that the parser asks for. -/
theorem digit_facts (c : Char) (h : isDecDigit c = true) :
    c ≠ '-' ∧ c ≠ '+' ∧ c ≠ '_' ∧ c ≠ '.' ∧ c ≠ 'i' ∧ c ≠ 'I' ∧ c ≠ 'n' ∧ c ≠ 'N' ∧
    c ≠ ' ' ∧ c ≠ '%' ∧ ('0' ≤ c ∧ c ≤ '9') ∧ ¬ ('A' ≤ c ∧ c ≤ 'Z') ∧
    lower c ≠ 'x'.toNat ∧ lower c ≠ 'e'.toNat := by
  have hc := isDecDigit_cases c h
  simp only [List.mem_cons, List.mem_singleton, List.not_mem_nil, or_false] at hc
  rcases hc with h | h | h | h | h | h | h | h | h | h <;> subst h <;> decide

/-- Trimming spaces and '%' from a string that ends in one '%' and otherwise
neither starts nor ends with a space or '%' takes off that '%'. -/
theorem Trim_percent (h : Char) (t : List Char) (y : Char)
    (hh : h ≠ ' ' ∧ h ≠ '%') (hy : y ≠ ' ' ∧ y ≠ '%') :
    Trim ⟨h :: (t ++ [y, '%'])⟩ " %" = ⟨h :: (t ++ [y])⟩ := by
  have hcut : ∀ c : Char, decide (c ∈ " %".data) = (decide (c = ' ') || decide (c = '%')) := by
    intro c
    have : " %".data = [' ', '%'] := rfl
    rw [this]
    simp
  have hrev : (h :: (t ++ [y, '%'])).reverse = '%' :: y :: (h :: t).reverse := by
    simp
  unfold Trim
  simp only [hrev]
  rw [List.dropWhile_cons_of_pos (by rw [hcut]; simp),
    List.dropWhile_cons_of_neg (by rw [hcut]; simp [hy.1, hy.2])]
  have hback : (y :: (h :: t).reverse).reverse = h :: (t ++ [y]) := by simp
  rw [hback, List.dropWhile_cons_of_neg (by rw [hcut]; simp [hh.1, hh.2])]

theorem readFloat_digits_digit (c : Char) (rest : List Char) (d : Digits)
    (hc : isDecDigit c = true) :
    readFloat.digits 10 (c :: rest) d =
      readFloat.digits 10 rest
        ⟨d.mantissa * 10 + (c.toNat - '0'.toNat),
          if d.sawdot then d.fracDigits + 1 else d.fracDigits, d.sawdot, true,
          d.underscores⟩ := by
  obtain ⟨_, _, h3, h4, _, _, _, _, _, _, h11, _⟩ := digit_facts c hc
  rw [readFloat.digits, if_neg h3, if_neg h4, if_pos h11]

/-- The digit loop of `readFloat` over a run of decimal digits. -/
theorem readFloat_digits_run (I rest : List Char) (d : Digits)
    (hall : ∀ c ∈ I, isDecDigit c = true) :
    readFloat.digits 10 (I ++ rest) d =
      readFloat.digits 10 rest
        ⟨I.foldl (fun m c => m * 10 + (c.toNat - '0'.toNat)) d.mantissa,
          if d.sawdot then d.fracDigits + I.length else d.fracDigits, d.sawdot,
          d.sawdigits || !I.isEmpty, d.underscores⟩ := by
  induction I generalizing d with
  | nil =>
    cases d
    simp
  | cons c I ih =>
    rw [List.cons_append, readFloat_digits_digit c _ d (hall c (List.mem_cons_self _ _)),
      ih _ (fun x hx => hall x (List.mem_cons_of_mem _ hx))]
    congr 1
    cases hd : d.sawdot <;> simp [hd]
    omega

/-- The digit loop of `readFloat` over digits, a point and two digits. -/
theorem readFloat_digits_fixed2 (I : List Char) (a b : Char) (hne : I ≠ [])
    (hall : ∀ c ∈ I, isDecDigit c = true) (ha : isDecDigit a = true)
    (hb : isDecDigit b = true) :
    readFloat.digits 10 (I ++ ['.', a, b]) ⟨0, 0, false, false, false⟩ =
      (⟨digitsVal (I ++ [a, b]), 2, true, true, false⟩, []) := by
  rw [readFloat_digits_run I _ _ hall]
  have hpt : ∀ (d : Digits) (rest : List Char), d.sawdot = false →
      readFloat.digits 10 ('.' :: rest) d = readFloat.digits 10 rest { d with sawdot := true } := by
    intro d rest hd
    rw [readFloat.digits, if_neg (by decide), if_pos rfl, hd]
    rfl
  rw [hpt _ _ rfl, readFloat_digits_digit a _ _ ha, readFloat_digits_digit b _ _ hb,
    readFloat.digits]
  have hI : I.isEmpty = false := by
    cases I with
    | nil => exact absurd rfl hne
    | cons c I => rfl
  simp [hI, digitsVal, List.foldl_append]

theorem special_digit (c : Char) (rest : List Char) (hc : isDecDigit c = true) :
    special (c :: rest) = none ∧ special ('-' :: c :: rest) = none := by
  obtain ⟨h1, h2, _, _, h5, h6, h7, h8, _, _, _, h12, _⟩ := digit_facts c hc
  have hpre : commonPrefixLenIgnoreCase (c :: rest) "infinity".data = 0 := by
    have : "infinity".data = 'i' :: "nfinity".data := rfl
    rw [this, commonPrefixLenIgnoreCase]
    simp [h12, h5]
  constructor
  · rw [special, if_neg h2, if_neg h1, if_neg (by simp [h5, h6]), if_neg (by simp [h7, h8])]
  · rw [special, if_neg (by decide), if_pos rfl]
    simp [special.infinity, hpre]

/-- What `readFloat` returns on digits, a point and two digits, with or
without a leading '-'. -/
theorem readFloat_fixed2 (I : List Char) (a b : Char) (hne : I ≠ [])
    (hall : ∀ c ∈ I, isDecDigit c = true) (ha : isDecDigit a = true)
    (hb : isDecDigit b = true) :
    readFloat (I ++ ['.', a, b]) =
      some ⟨digitsVal (I ++ [a, b]), if digitsVal (I ++ [a, b]) ≠ 0 then -2 else 0,
        false, false, []⟩ ∧
    readFloat ('-' :: (I ++ ['.', a, b])) =
      some ⟨digitsVal (I ++ [a, b]), if digitsVal (I ++ [a, b]) ≠ 0 then -2 else 0,
        true, false, []⟩ := by
  cases I with
  | nil => exact absurd rfl hne
  | cons c I =>
    have hc := hall c (List.mem_cons_self _ _)
    obtain ⟨h1, h2, _, _, _, _, _, _, _, _, _, _, _, _⟩ := digit_facts c hc
    have hdig := readFloat_digits_fixed2 (c :: I) a b hne hall ha hb
    -- the second character is a digit or the point: no base prefix
    have hhex : (match c :: I ++ ['.', a, b] with
        | c0 :: c1 :: _ :: _ => decide (c0 = '0' ∧ lower c1 = 'x'.toNat)
        | _ => false) = false := by
      cases I with
      | nil => simp; intro _; decide
      | cons c1 I =>
        have hx := (digit_facts c1 (hall c1 (by simp))).2.2.2.2.2.2.2.2.2.2.2.2.1
        cases I with
        | nil =>
          simp
          intro _
          exact hx
        | cons c2 I =>
          simp
          intro _
          exact hx
    constructor
    · unfold readFloat
      simp only [List.cons_append] at hhex hdig ⊢
      simp only [h1, h2, or_self, if_false, hhex, Bool.false_eq_true, hdig, decide_False,
        Bool.not_true, false_and]
      rfl
    · unfold readFloat
      simp only [List.cons_append] at hhex hdig ⊢
      simp only [or_true, if_true, hhex, Bool.false_eq_true, if_false, hdig, decide_True,
        Bool.not_true, false_and]
      rfl

theorem roundFloat64_zero (den : Nat) : roundFloat64 0 den = some 0 := by
  unfold roundFloat64
  rw [if_pos rfl]

/-- What `ParseFloat` returns on digits, a point and two digits, with or without
a leading '-': the digits read as hundredths and rounded to a `float64`. -/
theorem ParseFloat_fixed2 (I : List Char) (a b : Char) (hne : I ≠ [])
    (hall : ∀ c ∈ I, isDecDigit c = true) (ha : isDecDigit a = true)
    (hb : isDecDigit b = true) :
    ParseFloat ⟨I ++ ['.', a, b]⟩ =
      (match roundFloat64 (digitsVal (I ++ [a, b])) 100 with
        | none => .error .ErrRange
        | some q => .ok (.fin q)) ∧
    ParseFloat ⟨'-' :: (I ++ ['.', a, b])⟩ =
      (match roundFloat64 (digitsVal (I ++ [a, b])) 100 with
        | none => .error .ErrRange
        | some q => .ok (.fin (-q))) := by
  obtain ⟨hr1, hr2⟩ := readFloat_fixed2 I a b hne hall ha hb
  have hsp : special (I ++ ['.', a, b]) = none ∧ special ('-' :: (I ++ ['.', a, b])) = none := by
    cases I with
    | nil => exact absurd rfl hne
    | cons c I => exact special_digit c _ (hall c (List.mem_cons_self _ _))
  have hround : (if (0 : Int) ≤ (if digitsVal (I ++ [a, b]) ≠ 0 then -2 else 0) then
        roundFloat64 (digitsVal (I ++ [a, b]) *
          10 ^ (if digitsVal (I ++ [a, b]) ≠ 0 then (-2 : Int) else 0).toNat) 1
      else roundFloat64 (digitsVal (I ++ [a, b]))
        (10 ^ (-(if digitsVal (I ++ [a, b]) ≠ 0 then (-2 : Int) else 0)).toNat)) =
      roundFloat64 (digitsVal (I ++ [a, b])) 100 := by
    by_cases h0 : digitsVal (I ++ [a, b]) = 0
    · rw [h0]
      simp [roundFloat64_zero]
    · rw [if_pos h0, if_neg (by decide)]
      rfl
  constructor
  · unfold ParseFloat
    simp only [hsp.1, hr1, ne_eq, not_true_eq_false, if_false, Bool.false_eq_true]
    rw [hround]
  · unfold ParseFloat
    simp only [hsp.2, hr2, ne_eq, not_true_eq_false, if_false, Bool.false_eq_true]
    rw [hround]
    rfl

/-- The change a refresh writes for the value `v` is read by the scan as the
`float64` nearest to `v` rounded to hundredths, with the sign of `v`; it is
skipped only if that rounding leaves the range of `float64`. -/
theorem parseChange_Sprintf (v : ℚ) (name symbol : String) (price : ℚ) :
    parseChange ⟨name, symbol, price, Sprintf2fPercent v⟩ =
      (match roundFloat64 (hundredths v) 100 with
        | none => .error .ErrRange
        | some q => .ok (.fin (if v < 0 then -q else q))) := by
  obtain ⟨I, a, b, hdata, hne, hall, ha, hb, hval⟩ := Sprintf2f_data v
  obtain ⟨hp1, hp2⟩ := ParseFloat_fixed2 I a b hne hall ha hb
  have hbf := digit_facts b hb
  show ParseFloat (Trim (Sprintf2fPercent v) " %") = _
  unfold hundredths
  rw [← hval]
  by_cases hv : v < 0
  · rw [if_pos hv] at hdata
    have hs : Sprintf2fPercent v = ⟨'-' :: ((I ++ ['.', a]) ++ [b, '%'])⟩ := by
      apply String.ext
      unfold Sprintf2fPercent
      rw [String.data_append, hdata]
      simp
    rw [hs, Trim_percent '-' (I ++ ['.', a]) b (by decide) ⟨hbf.2.2.2.2.2.2.2.2.1, hbf.2.2.2.2.2.2.2.2.2.1⟩]
    have hl : '-' :: ((I ++ ['.', a]) ++ [b]) = '-' :: (I ++ ['.', a, b]) := by simp
    rw [hl, hp2]
    simp only [hv, if_true]
  · rw [if_neg hv] at hdata
    cases I with
    | nil => exact absurd rfl hne
    | cons c I =>
      have hcf := digit_facts c (hall c (List.mem_cons_self _ _))
      have hs : Sprintf2fPercent v = ⟨c :: ((I ++ ['.', a]) ++ [b, '%'])⟩ := by
        apply String.ext
        unfold Sprintf2fPercent
        rw [String.data_append, hdata]
        simp
      rw [hs, Trim_percent c (I ++ ['.', a]) b ⟨hcf.2.2.2.2.2.2.2.2.1, hcf.2.2.2.2.2.2.2.2.2.1⟩
        ⟨hbf.2.2.2.2.2.2.2.2.1, hbf.2.2.2.2.2.2.2.2.2.1⟩]
      have hl : c :: ((I ++ ['.', a]) ++ [b]) = (c :: I) ++ ['.', a, b] := by simp
      rw [hl, hp1]
      simp only [hv, if_false]

/-! ### Rounding to `float64`: no overflow below the largest finite value -/

theorem natLog2_go_spec (fuel n : Nat) (h1 : 1 ≤ n) (hf : n < 2 ^ fuel) :
    2 ^ natLog2.go fuel n ≤ n ∧ n < 2 ^ (natLog2.go fuel n + 1) := by
  induction fuel generalizing n with
  | zero =>
    simp at hf
    omega
  | succ fuel ih =>
    rw [natLog2.go]
    by_cases h2 : n < 2
    · rw [if_pos h2]
      have : n = 1 := by omega
      subst this
      simp
    · rw [if_neg h2]
      have hhalf : n / 2 < 2 ^ fuel := by
        rw [Nat.div_lt_iff_lt_mul (by norm_num)]
        rw [pow_succ] at hf
        exact hf
      obtain ⟨hlo, hhi⟩ := ih (n / 2) (by omega) hhalf
      constructor
      · rw [pow_succ]
        omega
      · rw [pow_succ]
        omega

/-- The position of the highest set bit: `2 ^ natLog2 n ≤ n < 2 ^ (natLog2 n + 1)`. -/
theorem natLog2_spec (n : Nat) (h1 : 1 ≤ n) :
    2 ^ natLog2 n ≤ n ∧ n < 2 ^ (natLog2 n + 1) :=
  natLog2_go_spec n n h1 (Nat.lt_two_pow n)

theorem roundHalfEven_le (num den m : Nat) (hden : 0 < den) (h : num ≤ m * den) :
    roundHalfEven num den ≤ m := by
  have hq : num / den ≤ m :=
    Nat.div_le_of_le_mul (by rw [Nat.mul_comm]; exact h)
  have hdm := Nat.div_add_mod num den
  unfold roundHalfEven
  simp only []
  by_cases hlt : num / den < m
  · split
    · omega
    · split
      · omega
      · split <;> omega
  · have hqm : num / den = m := by omega
    have hr : num % den = 0 := by
      rw [hqm] at hdm
      have : den * m = m * den := Nat.mul_comm _ _
      omega
    rw [hr]
    simp [hden, hqm]

theorem roundHalfEven_upper (num den : Nat) (hden : 0 < den) :
    2 * (den * roundHalfEven num den) ≤ 2 * num + den := by
  have hdm := Nat.div_add_mod num den
  have hmod := Nat.mod_lt num hden
  unfold roundHalfEven
  simp only []
  split
  · omega
  · split
    · rw [Nat.mul_add]
      omega
    · split
      · omega
      · rw [Nat.mul_add]
        omega

/-- The exponent `floorLog2` finds is not too large: `2 ^ e * den ≤ num`. -/
theorem floorLog2_le (num den : Nat) (hn : 1 ≤ num) (hd : 1 ≤ den) :
    (2 : ℚ) ^ (floorLog2 num den) * (den : ℚ) ≤ (num : ℚ) := by
  obtain ⟨ha, _⟩ := natLog2_spec num hn
  obtain ⟨_, hb⟩ := natLog2_spec den hd
  have haQ : (2 : ℚ) ^ ((natLog2 num : Int)) ≤ (num : ℚ) := by
    rw [zpow_natCast]
    exact_mod_cast ha
  have hbQ : (den : ℚ) ≤ (2 : ℚ) ^ ((natLog2 den : Int) + 1) := by
    have : (den : ℚ) < (2 : ℚ) ^ (natLog2 den + 1) := by exact_mod_cast hb
    have h2 : (2 : ℚ) ^ ((natLog2 den : Int) + 1) = (2 : ℚ) ^ (natLog2 den + 1) := by
      rw [← zpow_natCast]
      norm_cast
    rw [h2]
    exact le_of_lt this
  have hpos : ∀ z : Int, (0 : ℚ) < (2 : ℚ) ^ z := fun z => zpow_pos (by norm_num) z
  -- the exponent one below the difference of the bit lengths always fits
  have hlow : (2 : ℚ) ^ ((natLog2 num : Int) - (natLog2 den : Int) - 1) * (den : ℚ) ≤ (num : ℚ) := by
    calc (2 : ℚ) ^ ((natLog2 num : Int) - (natLog2 den : Int) - 1) * (den : ℚ)
        ≤ (2 : ℚ) ^ ((natLog2 num : Int) - (natLog2 den : Int) - 1) *
            (2 : ℚ) ^ ((natLog2 den : Int) + 1) :=
          mul_le_mul_of_nonneg_left hbQ (le_of_lt (hpos _))
      _ = (2 : ℚ) ^ ((natLog2 num : Int)) := by
          rw [← zpow_add₀ (by norm_num : (2 : ℚ) ≠ 0)]
          congr 1
          ring
      _ ≤ (num : ℚ) := haQ
  unfold floorLog2
  simp only []
  split
  · rename_i hl
    split
    · rename_i hchk
      rw [Nat.shiftLeft_eq] at hchk
      have hz : (2 : ℚ) ^ ((natLog2 num : Int) - (natLog2 den : Int)) =
          (2 : ℚ) ^ ((natLog2 num : Int) - (natLog2 den : Int)).toNat := by
        rw [← zpow_natCast, Int.toNat_of_nonneg hl]
      rw [hz, mul_comm]
      exact_mod_cast hchk
    · exact hlow
  · rename_i hl
    split
    · rename_i hchk
      rw [Nat.shiftLeft_eq] at hchk
      have hneg : (0 : Int) ≤ -((natLog2 num : Int) - (natLog2 den : Int)) := by omega
      have hz : (2 : ℚ) ^ ((natLog2 num : Int) - (natLog2 den : Int)) =
          ((2 : ℚ) ^ (-((natLog2 num : Int) - (natLog2 den : Int))).toNat)⁻¹ := by
        rw [← zpow_natCast, Int.toNat_of_nonneg hneg, zpow_neg, inv_inv]
      have hchkQ : (den : ℚ) ≤ (num : ℚ) *
          (2 : ℚ) ^ (-((natLog2 num : Int) - (natLog2 den : Int))).toNat := by
        exact_mod_cast hchk
      rw [hz, inv_mul_le_iff₀ (pow_pos (by norm_num) _), mul_comm]
      exact hchkQ
    · exact hlow

theorem top_lt (qe : Int) (n : Nat) (h1 : qe ≤ 971) (h2 : qe = 971 → n < 2 ^ 53) :
    ¬ (1024 : Int) ≤ (if 2 ^ 53 ≤ n then qe + 53 else qe + 52) := by
  split
  · rename_i hn
    have : qe ≠ 971 := fun h => absurd hn (not_le.mpr (h2 h))
    omega
  · omega

/-- The shape of the result of `roundFloat64` once the overflow test is passed. -/
theorem roundFloat64_of_top (num den : Nat) (h0 : num ≠ 0)
    (htop : ¬ (1024 : Int) ≤
      (if 2 ^ 53 ≤ (if 0 ≤ max (floorLog2 num den) (-1022) - 52 then
            roundHalfEven num (den <<< (max (floorLog2 num den) (-1022) - 52).toNat)
          else roundHalfEven (num <<< (-(max (floorLog2 num den) (-1022) - 52)).toNat) den)
        then max (floorLog2 num den) (-1022) - 52 + 53
        else max (floorLog2 num den) (-1022) - 52 + 52)) :
    roundFloat64 num den =
      if 0 ≤ max (floorLog2 num den) (-1022) - 52 then
        some ((roundHalfEven num (den <<< (max (floorLog2 num den) (-1022) - 52).toNat) <<<
          (max (floorLog2 num den) (-1022) - 52).toNat : Nat) : ℚ)
      else
        some (mkRat (roundHalfEven (num <<< (-(max (floorLog2 num den) (-1022) - 52)).toNat) den : Nat)
          (1 <<< (-(max (floorLog2 num den) (-1022) - 52)).toNat)) := by
  unfold roundFloat64
  rw [if_neg h0]
  simp only []
  rw [if_neg htop]
  split <;> rfl

/-- Below the largest finite `float64` the rounding does not overflow. -/
theorem roundFloat64_some (num den : Nat) (hd : 1 ≤ den)
    (h : num ≤ (2 ^ 53 - 1) * 2 ^ 971 * den) :
    ∃ q, roundFloat64 num den = some q ∧ 0 ≤ q := by
  by_cases h0 : num = 0
  · subst h0
    exact ⟨0, roundFloat64_zero den, le_refl _⟩
  have hn : 1 ≤ num := Nat.one_le_iff_ne_zero.mpr h0
  have he := floorLog2_le num den hn hd
  have hdQ : (0 : ℚ) < (den : ℚ) := by exact_mod_cast hd
  have hlt : floorLog2 num den < 1024 := by
    by_contra hge
    have hge' : (1024 : Int) ≤ floorLog2 num den := not_lt.mp hge
    have h1 : (2 : ℚ) ^ (1024 : Int) ≤ (2 : ℚ) ^ (floorLog2 num den) :=
      zpow_le_zpow_right₀ (by norm_num) hge'
    have h2 : (2 : ℚ) ^ (1024 : Int) * (den : ℚ) ≤ (num : ℚ) :=
      le_trans (mul_le_mul_of_nonneg_right h1 (le_of_lt hdQ)) he
    have h3 : (num : ℚ) ≤ (((2 ^ 53 - 1) * 2 ^ 971 : Nat) : ℚ) * (den : ℚ) := by
      exact_mod_cast h
    have h4 : (((2 ^ 53 - 1) * 2 ^ 971 : Nat) : ℚ) < (2 : ℚ) ^ (1024 : Int) := by
      norm_num
    have h5 := mul_lt_mul_of_pos_right h4 hdQ
    linarith
  have hqe : max (floorLog2 num den) (-1022) - 52 ≤ 971 := by omega
  have htop := top_lt (max (floorLog2 num den) (-1022) - 52)
    (if 0 ≤ max (floorLog2 num den) (-1022) - 52 then
        roundHalfEven num (den <<< (max (floorLog2 num den) (-1022) - 52).toNat)
      else roundHalfEven (num <<< (-(max (floorLog2 num den) (-1022) - 52)).toNat) den) hqe
    (by
      intro h971
      rw [h971, if_pos (by norm_num)]
      have hm : roundHalfEven num (den <<< (971 : Int).toNat) ≤ 2 ^ 53 - 1 := by
        apply roundHalfEven_le
        · rw [Nat.shiftLeft_eq]
          exact Nat.mul_pos hd (pow_pos (by norm_num) _)
        · rw [Nat.shiftLeft_eq]
          have : (971 : Int).toNat = 971 := rfl
          rw [this]
          calc num ≤ (2 ^ 53 - 1) * 2 ^ 971 * den := h
            _ = (2 ^ 53 - 1) * (den * 2 ^ 971) := by ring
      omega)
  rw [roundFloat64_of_top num den h0 htop]
  split
  · exact ⟨_, rfl, by positivity⟩
  · refine ⟨_, rfl, ?_⟩
    rw [Rat.mkRat_eq_div]
    positivity

/-- Fewer than 10000 hundredths round to a `float64` below 100. -/
theorem roundFloat64_lt_hundred (num : Nat) (h : num < 10000) :
    ∃ q, roundFloat64 num 100 = some q ∧ 0 ≤ q ∧ q < 100 := by
  by_cases h0 : num = 0
  · subst h0
    exact ⟨0, roundFloat64_zero 100, le_refl _, by norm_num⟩
  have hn : 1 ≤ num := Nat.one_le_iff_ne_zero.mpr h0
  have he := floorLog2_le num 100 hn (by norm_num)
  have hlt : floorLog2 num 100 < 7 := by
    by_contra hge
    have hge' : (7 : Int) ≤ floorLog2 num 100 := not_lt.mp hge
    have h1 : (2 : ℚ) ^ (7 : Int) ≤ (2 : ℚ) ^ (floorLog2 num 100) :=
      zpow_le_zpow_right₀ (by norm_num) hge'
    have h2 : (2 : ℚ) ^ (7 : Int) * ((100 : Nat) : ℚ) ≤ (num : ℚ) :=
      le_trans (mul_le_mul_of_nonneg_right h1 (by norm_num)) he
    have h3 : (num : ℚ) < 10000 := by exact_mod_cast h
    norm_num at h2
    linarith
  have hqe : max (floorLog2 num 100) (-1022) - 52 ≤ -46 := by omega
  have hqe' : ¬ (0 : Int) ≤ max (floorLog2 num 100) (-1022) - 52 := by omega
  have htop := top_lt (max (floorLog2 num 100) (-1022) - 52)
    (if 0 ≤ max (floorLog2 num 100) (-1022) - 52 then
        roundHalfEven num (100 <<< (max (floorLog2 num 100) (-1022) - 52).toNat)
      else roundHalfEven (num <<< (-(max (floorLog2 num 100) (-1022) - 52)).toNat) 100)
    (by omega) (by omega)
  rw [roundFloat64_of_top num 100 h0 htop, if_neg hqe']
  refine ⟨_, rfl, ?_, ?_⟩
  · rw [Rat.mkRat_eq_div]
    positivity
  · have hk : 6 ≤ (-(max (floorLog2 num 100) (-1022) - 52)).toNat := by omega
    generalize (-(max (floorLog2 num 100) (-1022) - 52)).toNat = k at hk ⊢
    have hup := roundHalfEven_upper (num <<< k) 100 (by norm_num)
    rw [Nat.shiftLeft_eq] at hup ⊢
    rw [Nat.shiftLeft_eq]
    have hP : 2 ^ 6 ≤ 2 ^ k := Nat.pow_le_pow_right (by norm_num) hk
    have hmul : num * 2 ^ k ≤ 9999 * 2 ^ k := Nat.mul_le_mul_right _ (by omega)
    have hnat : roundHalfEven (num * 2 ^ k) 100 < 100 * 2 ^ k := by omega
    rw [Rat.mkRat_eq_div, div_lt_iff₀ (by positivity), Nat.one_mul]
    exact_mod_cast hnat

/-! ### Rounding to `float64`: the result is within half a unit in the last place -/

theorem roundHalfEven_lower (num den : Nat) (hden : 0 < den) :
    2 * num ≤ 2 * (den * roundHalfEven num den) + den := by
  have hdm := Nat.div_add_mod num den
  have hmod := Nat.mod_lt num hden
  unfold roundHalfEven
  simp only []
  split
  · omega
  · split
    · rw [Nat.mul_add]
      omega
    · split
      · omega
      · rw [Nat.mul_add]
        omega

/-- The integer `roundHalfEven` returns is at most one half away from the
quotient. -/
theorem roundHalfEven_close (num den : Nat) (hden : 0 < den) :
    |(roundHalfEven num den : ℚ) - (num : ℚ) / (den : ℚ)| ≤ 1 / 2 := by
  have hup := roundHalfEven_upper num den hden
  have hlo := roundHalfEven_lower num den hden
  have hdQ : (0 : ℚ) < (den : ℚ) := by exact_mod_cast hden
  have hupQ : 2 * ((den : ℚ) * (roundHalfEven num den : ℚ)) ≤ 2 * (num : ℚ) + (den : ℚ) := by
    exact_mod_cast hup
  have hloQ : 2 * (num : ℚ) ≤ 2 * ((den : ℚ) * (roundHalfEven num den : ℚ)) + (den : ℚ) := by
    exact_mod_cast hlo
  rw [abs_le]
  constructor
  · rw [le_sub_iff_add_le, ← sub_eq_neg_add, sub_le_iff_le_add, div_le_iff₀ hdQ]
    nlinarith
  · rw [sub_le_iff_le_add, ← sub_le_iff_le_add', le_div_iff₀ hdQ]
    nlinarith

theorem scaled_close (P x : ℚ) (R : ℕ) (hP : 0 < P)
    (h1 : |(R : ℚ) - x / P| ≤ 1 / 2) (hkey : P * 2 ^ 52 ≤ x) :
    |(R : ℚ) * P - x| ≤ x * (2 : ℚ) ^ (-53 : Int) := by
  have hrw : (R : ℚ) * P - x = P * ((R : ℚ) - x / P) := by
    field_simp
  rw [hrw, abs_mul, abs_of_pos hP]
  have h2 : (2 : ℚ) ^ (-53 : Int) = 1 / (2 * 2 ^ 52) := by norm_num
  rw [h2]
  calc P * |(R : ℚ) - x / P| ≤ P * (1 / 2) := mul_le_mul_of_nonneg_left h1 (le_of_lt hP)
    _ = P * 2 ^ 52 * (1 / (2 * 2 ^ 52)) := by ring
    _ ≤ x * (1 / (2 * 2 ^ 52)) := mul_le_mul_of_nonneg_right hkey (by positivity)

/-- The `float64` that `roundFloat64` returns for a quotient not below the
smallest normal number is within the relative distance `2 ^ (-53)` of the
quotient. -/
theorem roundFloat64_close (num den : Nat) (hn : 1 ≤ num) (hd : 1 ≤ den) (q : ℚ)
    (hq : roundFloat64 num den = some q)
    (hx : (2 : ℚ) ^ (-1022 : Int) * (den : ℚ) ≤ (num : ℚ)) :
    |q - (num : ℚ) / (den : ℚ)| ≤ (num : ℚ) / (den : ℚ) * (2 : ℚ) ^ (-53 : Int) := by
  have h0 : num ≠ 0 := by omega
  have hdQ : (0 : ℚ) < (den : ℚ) := by exact_mod_cast hd
  have he := floorLog2_le num den hn hd
  by_cases htop : (1024 : Int) ≤
      (if 2 ^ 53 ≤ (if 0 ≤ max (floorLog2 num den) (-1022) - 52 then
            roundHalfEven num (den <<< (max (floorLog2 num den) (-1022) - 52).toNat)
          else roundHalfEven (num <<< (-(max (floorLog2 num den) (-1022) - 52)).toNat) den)
        then max (floorLog2 num den) (-1022) - 52 + 53
        else max (floorLog2 num den) (-1022) - 52 + 52)
  · unfold roundFloat64 at hq
    rw [if_neg h0] at hq
    simp only [] at hq
    rw [if_pos htop] at hq
    cases hq
  rw [roundFloat64_of_top num den h0 htop] at hq
  -- the unit in the last place times `2 ^ 52` is not above the quotient
  have hkey : (2 : ℚ) ^ (max (floorLog2 num den) (-1022) - 52) * 2 ^ 52 ≤
      (num : ℚ) / (den : ℚ) := by
    have hsum : (2 : ℚ) ^ (max (floorLog2 num den) (-1022) - 52) * 2 ^ 52 =
        (2 : ℚ) ^ (max (floorLog2 num den) (-1022)) := by
      have : ((2 : ℚ) ^ 52) = (2 : ℚ) ^ (52 : Int) := by norm_cast
      rw [this, ← zpow_add₀ (by norm_num : (2 : ℚ) ≠ 0)]
      congr 1
      ring
    rw [hsum, le_div_iff₀ hdQ]
    rcases max_choice (floorLog2 num den) (-1022) with hm | hm
    · rw [hm]
      exact he
    · rw [hm]
      exact hx
  generalize max (floorLog2 num den) (-1022) - 52 = QE at hq hkey
  by_cases hQ : 0 ≤ QE
  · rw [if_pos hQ] at hq
    cases hq
    have hP : (2 : ℚ) ^ QE = (2 : ℚ) ^ QE.toNat := by
      rw [← zpow_natCast, Int.toNat_of_nonneg hQ]
    rw [hP] at hkey
    have hc := roundHalfEven_close num (den <<< QE.toNat)
      (by rw [Nat.shiftLeft_eq]; exact Nat.mul_pos hd (pow_pos (by norm_num) _))
    rw [Nat.shiftLeft_eq] at hc
    simp only [Nat.shiftLeft_eq]
    have h1 : |((roundHalfEven num (den * 2 ^ QE.toNat) : ℕ) : ℚ) -
        (num : ℚ) / (den : ℚ) / (2 : ℚ) ^ QE.toNat| ≤ 1 / 2 := by
      have : (num : ℚ) / (den : ℚ) / (2 : ℚ) ^ QE.toNat =
          (num : ℚ) / ((den * 2 ^ QE.toNat : ℕ) : ℚ) := by
        push_cast
        rw [div_div]
      rw [this]
      exact hc
    have := scaled_close ((2 : ℚ) ^ QE.toNat) ((num : ℚ) / (den : ℚ))
      (roundHalfEven num (den * 2 ^ QE.toNat)) (by positivity) h1 hkey
    push_cast
    exact this
  · rw [if_neg hQ] at hq
    cases hq
    have hneg : (0 : Int) ≤ -QE := by omega
    have hP : (2 : ℚ) ^ QE = ((2 : ℚ) ^ (-QE).toNat)⁻¹ := by
      rw [← zpow_natCast, Int.toNat_of_nonneg hneg, zpow_neg, inv_inv]
    rw [hP] at hkey
    have hc := roundHalfEven_close (num <<< (-QE).toNat) den hd
    rw [Nat.shiftLeft_eq] at hc
    have h1 : |((roundHalfEven (num * 2 ^ (-QE).toNat) den : ℕ) : ℚ) -
        (num : ℚ) / (den : ℚ) / ((2 : ℚ) ^ (-QE).toNat)⁻¹| ≤ 1 / 2 := by
      have : (num : ℚ) / (den : ℚ) / ((2 : ℚ) ^ (-QE).toNat)⁻¹ =
          ((num * 2 ^ (-QE).toNat : ℕ) : ℚ) / (den : ℚ) := by
        push_cast
        rw [div_inv_eq_mul]
        ring
      rw [this]
      exact hc
    have := scaled_close (((2 : ℚ) ^ (-QE).toNat)⁻¹) ((num : ℚ) / (den : ℚ))
      (roundHalfEven (num * 2 ^ (-QE).toNat) den) (by positivity) h1 hkey
    rw [Rat.mkRat_eq_div, Nat.shiftLeft_eq, Nat.shiftLeft_eq, Nat.one_mul]
    push_cast
    rw [div_eq_mul_inv]
    exact this

/-! ### C18 -/

theorem abs_eq_natAbs_div (v : ℚ) : |v| = (v.num.natAbs : ℚ) / (v.den : ℚ) := by
  rw [Rat.abs_def, Rat.divInt_eq_div]
  push_cast
  rw [Nat.cast_natAbs]
  push_cast
  rfl

/-- A value in the range of `float64` has its hundredths in that range. -/
theorem hundredths_le (v : ℚ) (hv : |v| ≤ maxFloat64) :
    hundredths v ≤ (2 ^ 53 - 1) * 2 ^ 971 * 100 := by
  have hden : 0 < v.den := v.den_pos
  have hdQ : (0 : ℚ) < (v.den : ℚ) := by exact_mod_cast hden
  rw [abs_eq_natAbs_div, maxFloat64, div_le_iff₀ hdQ] at hv
  have hnat : v.num.natAbs ≤ (2 ^ 53 - 1) * 2 ^ 971 * v.den := by exact_mod_cast hv
  unfold hundredths
  apply roundHalfEven_le _ _ _ hden
  calc v.num.natAbs * 100 ≤ (2 ^ 53 - 1) * 2 ^ 971 * v.den * 100 :=
        Nat.mul_le_mul_right _ hnat
    _ = (2 ^ 53 - 1) * 2 ^ 971 * 100 * v.den := by ring

theorem abs_round2 (v : ℚ) : |round2 v| = (hundredths v : ℚ) / 100 := by
  have hnn : (0 : ℚ) ≤ (hundredths v : ℚ) / 100 := by positivity
  unfold round2
  split
  · rw [abs_neg, abs_of_nonneg hnn]
  · rw [abs_of_nonneg hnn]

theorem hundredths_lt_of_round2 (v : ℚ) (h1 : -100 < round2 v) (h2 : round2 v < 100) :
    hundredths v < 10000 := by
  have habs : |round2 v| < 100 := abs_lt.mpr ⟨h1, h2⟩
  rw [abs_round2, div_lt_iff₀ (by norm_num)] at habs
  have : (hundredths v : ℚ) < ((10000 : ℕ) : ℚ) := by
    norm_num at habs ⊢
    exact habs
  exact_mod_cast this

/-- A record written by a refresh is not the zero-value record: its change is
not empty. -/
theorem recordSpec_ne_zero (caseTable : Char → Char) (tables : TitleTables) (id : String)
    (data : GoMap ℚ) : recordSpec caseTable tables id data ≠ Crypto.zero := by
  intro h
  have hch : (recordSpec caseTable tables id data).Change = "" := by rw [h]; rfl
  have hdata : (Sprintf2fPercent (data.index "usd_24h_change")).data = [] := by
    have : (recordSpec caseTable tables id data).Change =
        Sprintf2fPercent (data.index "usd_24h_change") := rfl
    rw [← this, hch]
  unfold Sprintf2fPercent at hdata
  rw [String.data_append] at hdata
  have : ("%" : String).data = ['%'] := rfl
  rw [this] at hdata
  simp at hdata

/-- When the change of some record of a non-empty cache parses to a value
strictly between -100 and 100, both results of the scan are records of the
cache. -/
theorem getTopGainerLoser_mem (cryptos : List Crypto) (r : Crypto) (hr : r ∈ cryptos)
    (v : F64) (hv : parseChange r = .ok v) (hlo : F64.lt (.fin (-100)) v = true)
    (hhi : F64.lt v (.fin 100) = true) :
    ∃ g l, getTopGainerLoser cryptos = (JSON StatusOK (.gainerLoser g l), cryptos) ∧
      g ∈ cryptos ∧ l ∈ cryptos := by
  have hne : cryptos ≠ [] := List.ne_nil_of_mem hr
  refine ⟨_, _, getTopGainerLoser_eq cryptos hne, ?_, ?_⟩
  · rcases bestBy_gt_mem cryptos Crypto.zero (.fin (-100)) (by simp) with
      ⟨hall, _⟩ | ⟨c, hm, _⟩
    · have := hall r hr v hv
      unfold F64.gt at this
      rw [hlo] at this
      cases this
    · exact hm
  · rcases bestBy_lt_mem cryptos Crypto.zero (.fin 100) (by simp) with
      ⟨hall, _⟩ | ⟨c, hm, _⟩
    · have := hall r hr v hv
      rw [hhi] at this
      cases this
    · exact hm

/-- C18: for every 24h-change value `v` in the range of `float64`, the change
string a refresh builds for it, `Sprintf("%.2f%%", v)`, is not skipped by the
scan: stripped of spaces and '%' it parses, to the `float64` nearest to `v`
rounded to two decimal places (with the sign of `v`, at relative distance at
most `2 ^ (-53)` from the rounded value). Hence after a successful refresh in
which the change of some asset, rounded to two decimal places, lies strictly
between -100 and 100, `getTopGainerLoser` answers with a `top_gainer` and a
`top_loser` that are both records of the cache and not the zero-value record. -/
theorem refresh_change_round_trip (caseTable : Char → Char) (tables : TitleTables) :
    (∀ (v : ℚ) (name symbol : String) (price : ℚ), |v| ≤ maxFloat64 →
      ∃ q, parseChange ⟨name, symbol, price, Sprintf2fPercent v⟩ =
          .ok (.fin (if v < 0 then -q else q)) ∧
        roundFloat64 (hundredths v) 100 = some q ∧
        |q - abs (round2 v)| ≤ abs (round2 v) * (2 : ℚ) ^ (-53 : Int)) ∧
    (∀ (result : GoMap (GoMap ℚ)) (createErr : Bool) (st : State),
      (∃ e ∈ result.entries, -100 < round2 (e.2.index "usd_24h_change") ∧
        round2 (e.2.index "usd_24h_change") < 100) →
      ∃ g l,
        getTopGainerLoser
            (fetchCryptoData caseTable tables (.decoded result) createErr st).2.cryptos =
          (JSON StatusOK (.gainerLoser g l),
            (fetchCryptoData caseTable tables (.decoded result) createErr st).2.cryptos) ∧
        g ∈ (fetchCryptoData caseTable tables (.decoded result) createErr st).2.cryptos ∧
        l ∈ (fetchCryptoData caseTable tables (.decoded result) createErr st).2.cryptos ∧
        g ≠ Crypto.zero ∧ l ≠ Crypto.zero) := by
  constructor
  · intro v name symbol price hv
    obtain ⟨q, hq, hq0⟩ := roundFloat64_some (hundredths v) 100 (by norm_num)
      (hundredths_le v hv)
    refine ⟨q, ?_, hq, ?_⟩
    · rw [parseChange_Sprintf, hq]
    · rw [abs_round2]
      by_cases h0 : hundredths v = 0
      · rw [h0, roundFloat64_zero] at hq
        cases hq
        rw [h0]
        simp
      · have hn : 1 ≤ hundredths v := Nat.one_le_iff_ne_zero.mpr h0
        have hx : (2 : ℚ) ^ (-1022 : Int) * ((100 : ℕ) : ℚ) ≤ (hundredths v : ℚ) := by
          have h1 : (1 : ℚ) ≤ (hundredths v : ℚ) := by exact_mod_cast hn
          have h2 : (2 : ℚ) ^ (-1022 : Int) * ((100 : ℕ) : ℚ) ≤ 1 := by
            rw [zpow_neg, inv_mul_le_iff₀ (by positivity)]
            have : ((100 : ℕ) : ℚ) ≤ (2 : ℚ) ^ (7 : Int) := by norm_num
            exact le_trans this (by
              rw [mul_one]
              exact zpow_le_zpow_right₀ (by norm_num) (by norm_num))
          exact le_trans h2 h1
        have := roundFloat64_close (hundredths v) 100 hn (by norm_num) q hq hx
        simpa using this
  · rintro result createErr st ⟨e, he, h1, h2⟩
    have hlt := hundredths_lt_of_round2 _ h1 h2
    obtain ⟨q, hq, hq0, hq100⟩ := roundFloat64_lt_hundred _ hlt
    have hmem : recordSpec caseTable tables e.1 e.2 ∈
        (fetchCryptoData caseTable tables (.decoded result) createErr st).2.cryptos := by
      rw [fetchCryptoData_decoded_eq]
      exact List.mem_map.mpr ⟨e, he, rfl⟩
    have hparse : parseChange (recordSpec caseTable tables e.1 e.2) =
        .ok (.fin (if e.2.index "usd_24h_change" < 0 then -q else q)) := by
      unfold recordSpec
      rw [parseChange_Sprintf, hq]
    have hbetween : F64.lt (.fin (-100))
          (.fin (if e.2.index "usd_24h_change" < 0 then -q else q)) = true ∧
        F64.lt (.fin (if e.2.index "usd_24h_change" < 0 then -q else q)) (.fin 100) = true := by
      simp only [F64.lt, decide_eq_true_eq]
      split <;> constructor <;> linarith
    obtain ⟨g, l, heq, hg, hl⟩ := getTopGainerLoser_mem _ _ hmem _ hparse hbetween.1 hbetween.2
    refine ⟨g, l, heq, hg, hl, ?_, ?_⟩
    · rw [fetchCryptoData_decoded_eq] at hg
      obtain ⟨e', _, hge⟩ := List.mem_map.mp hg
      rw [← hge]
      exact recordSpec_ne_zero _ _ _ _
    · rw [fetchCryptoData_decoded_eq] at hl
      obtain ⟨e', _, hle⟩ := List.mem_map.mp hl
      rw [← hle]
      exact recordSpec_ne_zero _ _ _ _

/-- C18 on the value -3.42 and on the response with the seven requested
identifiers, in which "solana" has the change -3.42. -/
theorem refresh_change_round_trip_witness :
    |(mkRat (-171) 50 : ℚ)| ≤ maxFloat64 ∧
    (∃ q, parseChange ⟨"Solana", "SOLANA", 150, Sprintf2fPercent (mkRat (-171) 50)⟩ =
        .ok (.fin (if (mkRat (-171) 50 : ℚ) < 0 then -q else q)) ∧
      roundFloat64 (hundredths (mkRat (-171) 50)) 100 = some q ∧
      |q - abs (round2 (mkRat (-171) 50))| ≤
        abs (round2 (mkRat (-171) 50)) * (2 : ℚ) ^ (-53 : Int)) ∧
    (∃ g l,
      getTopGainerLoser
          (fetchCryptoData id plainTables (.decoded fullResponse) false ⟨[], none⟩).2.cryptos =
        (JSON StatusOK (.gainerLoser g l),
          (fetchCryptoData id plainTables (.decoded fullResponse) false ⟨[], none⟩).2.cryptos) ∧
      g ∈ (fetchCryptoData id plainTables (.decoded fullResponse) false ⟨[], none⟩).2.cryptos ∧
      l ∈ (fetchCryptoData id plainTables (.decoded fullResponse) false ⟨[], none⟩).2.cryptos ∧
      g ≠ Crypto.zero ∧ l ≠ Crypto.zero) := by
  have hv : |(mkRat (-171) 50 : ℚ)| ≤ maxFloat64 := by
    rw [Rat.mkRat_eq_div, maxFloat64]
    norm_num [abs_le]
  have hh : hundredths (mkRat (-171) 50) = 342 := by decide
  have hr : -100 < round2 (mkRat (-171) 50) ∧ round2 (mkRat (-171) 50) < 100 := by
    unfold round2
    rw [hh]
    split <;> constructor <;> norm_num
  have hmem : (("solana", ⟨[("usd", 150), ("usd_24h_change", mkRat (-171) 50)], by decide⟩) :
      String × GoMap ℚ) ∈ fullResponse.entries := by
    simp [fullResponse]
  exact ⟨hv, (refresh_change_round_trip id plainTables).1 _ _ _ _ hv,
    (refresh_change_round_trip id plainTables).2 fullResponse false ⟨[], none⟩
      ⟨_, hmem, hr⟩⟩

end CryptoAnalyzer
